import Mathlib

/-!
Verification of the campus-graph core (files src/grafos/grafo.py, nodo.py,
arista.py and the exit-resolution code of src/ui/app.py) as a shallow
embedding in Lean 4.

Modelling conventions:
* Python dicts preserve insertion order, so a dict is embedded as an
  association list `List (String × β)`; `dictInsert` updates the first
  matching key in place or appends a fresh key at the end, exactly as
  CPython does.
* Edge weights (Python floats, stored but never compared) are embedded as
  `Rat`; float *parsing* in the file loader is kept abstract as a
  parameter of the loader.
* Exceptions are embedded as `Except PyErr`; the `while` loop of
  `_reconstruir_camino` is embedded with explicit fuel, where running out
  of fuel (`PyErr.noTermina`) models non-termination of the Python loop.
  The fuel `dictLen padres + 1` is provably sufficient to reach either
  the normal exit or the `KeyError` whenever the walk is finite, and the
  walk repeats a node (hence loops forever) otherwise.
* The traversal functions only read the graph, so the embedding is pure:
  `bfs`/`dfs` take the graph and return a result bundle without any
  modified graph, which makes the source's read-only discipline
  structural.
-/

/-! ## Python-style dictionaries -/

abbrev Dict (β : Type) : Type := List (String × β)

def dictLookup {β : Type} (k : String) : Dict β → Option β
  | [] => none
  | (k2, v) :: r => if k2 = k then some v else dictLookup k r

def dictContains {β : Type} (k : String) (d : Dict β) : Bool :=
  (dictLookup k d).isSome

def dictInsert {β : Type} (k : String) (v : β) : Dict β → Dict β
  | [] => [(k, v)]
  | (k2, v2) :: r => if k2 = k then (k2, v) :: r else (k2, v2) :: dictInsert k v r

def dictKeys {β : Type} (d : Dict β) : List String := d.map Prod.fst

def dictLen {β : Type} (d : Dict β) : Nat := d.length

/-- Python `d[k].append`-style in-place adjustment of the value stored at
the first occurrence of `k` (no-op when `k` is absent; all call sites
first ensure the key is present, as the source does via `add_nodo`). -/
def dictAjusta {β : Type} (k : String) (f : β → β) : Dict β → Dict β
  | [] => []
  | (k2, v) :: r => if k2 = k then (k2, f v) :: r else (k2, v) :: dictAjusta k f r

theorem dictLookup_cons {β : Type} (k k2 : String) (v : β) (r : Dict β) :
    dictLookup k ((k2, v) :: r) = if k2 = k then some v else dictLookup k r := rfl

theorem dictContains_cons {β : Type} (k k2 : String) (v : β) (r : Dict β) :
    dictContains k ((k2, v) :: r) = if k2 = k then true else dictContains k r := by
  by_cases h : k2 = k <;> simp [dictContains, dictLookup, h]

theorem dictKeys_cons {β : Type} (k2 : String) (v : β) (r : Dict β) :
    dictKeys ((k2, v) :: r) = k2 :: dictKeys r := rfl

theorem dictLookup_insert {β : Type} (k k2 : String) (v : β) (d : Dict β) :
    dictLookup k2 (dictInsert k v d) = if k = k2 then some v else dictLookup k2 d := by
  induction d with
  | nil => simp [dictInsert, dictLookup]
  | cons p r ih =>
    obtain ⟨k3, v3⟩ := p
    by_cases h3 : k3 = k
    · subst h3
      by_cases h : k3 = k2 <;> simp [dictInsert, dictLookup, h]
    · by_cases h : k3 = k2
      · subst h
        have hk : ¬ k = k3 := fun e => h3 e.symm
        simp [dictInsert, dictLookup, h3, hk]
      · simp [dictInsert, dictLookup, h3, h, ih]

theorem dictContains_insert {β : Type} (k k2 : String) (v : β) (d : Dict β) :
    dictContains k2 (dictInsert k v d) = (decide (k = k2) || dictContains k2 d) := by
  by_cases h : k = k2 <;> simp [dictContains, dictLookup_insert, h]

theorem dictKeys_insert {β : Type} (k : String) (v : β) (d : Dict β) :
    dictKeys (dictInsert k v d) =
      if dictContains k d then dictKeys d else dictKeys d ++ [k] := by
  induction d with
  | nil => simp [dictInsert, dictKeys, dictContains, dictLookup]
  | cons p r ih =>
    obtain ⟨k3, v3⟩ := p
    by_cases h3 : k3 = k
    · subst h3
      simp [dictInsert, dictKeys, dictContains, dictLookup]
    · rw [show dictInsert k v ((k3, v3) :: r) = (k3, v3) :: dictInsert k v r by
        simp [dictInsert, h3]]
      rw [dictKeys_cons, dictKeys_cons, dictContains_cons, if_neg h3, ih]
      by_cases hc : dictContains k r <;> simp [hc]

theorem mem_dictKeys {β : Type} (k : String) (d : Dict β) :
    k ∈ dictKeys d ↔ dictContains k d = true := by
  induction d with
  | nil => simp [dictKeys, dictContains, dictLookup]
  | cons p r ih =>
    obtain ⟨k2, v⟩ := p
    rw [dictKeys_cons, dictContains_cons]
    by_cases h : k2 = k
    · simp [h]
    · have hk : ¬ k = k2 := fun e => h e.symm
      simp [h, hk, ih]

theorem dictLookup_isNone {β : Type} (k : String) (d : Dict β) :
    dictLookup k d = none ↔ ¬ k ∈ dictKeys d := by
  rw [mem_dictKeys]
  cases h : dictLookup k d <;> simp [dictContains, h]

theorem dictKeys_nodup_insert {β : Type} (k : String) (v : β) (d : Dict β)
    (h : (dictKeys d).Nodup) : (dictKeys (dictInsert k v d)).Nodup := by
  rw [dictKeys_insert]
  by_cases hc : dictContains k d
  · simpa [hc]
  · simp only [hc, if_false]
    have hm : ¬ k ∈ dictKeys d := by
      rw [mem_dictKeys]
      simp [hc]
    simp [List.nodup_append, h, hm]

theorem dictKeys_ajusta {β : Type} (k : String) (f : β → β) (d : Dict β) :
    dictKeys (dictAjusta k f d) = dictKeys d := by
  induction d with
  | nil => simp [dictAjusta]
  | cons p r ih =>
    obtain ⟨k2, v⟩ := p
    by_cases h : k2 = k
    · simp [dictAjusta, h, dictKeys]
    · rw [show dictAjusta k f ((k2, v) :: r) = (k2, v) :: dictAjusta k f r by
        simp [dictAjusta, h]]
      rw [dictKeys_cons, dictKeys_cons, ih]

theorem dictLookup_ajusta {β : Type} (k k2 : String) (f : β → β) (d : Dict β) :
    dictLookup k2 (dictAjusta k f d) =
      if k = k2 then (dictLookup k2 d).map f else dictLookup k2 d := by
  induction d with
  | nil => by_cases h : k = k2 <;> simp [dictAjusta, dictLookup, h]
  | cons p r ih =>
    obtain ⟨k3, v3⟩ := p
    by_cases h3 : k3 = k
    · subst h3
      by_cases h : k3 = k2
      · subst h
        simp [dictAjusta, dictLookup]
      · simp [dictAjusta, dictLookup, h]
    · rw [show dictAjusta k f ((k3, v3) :: r) = (k3, v3) :: dictAjusta k f r by
        simp [dictAjusta, h3]]
      by_cases h : k3 = k2
      · subst h
        have hk : ¬ k = k3 := fun e => h3 e.symm
        simp [dictLookup, hk]
      · simp [dictLookup, h, ih]

/-- Number of entries of `u` whose key is still missing from `d`; the
termination measure of both traversals. -/
def faltantes {β : Type} (u : List String) (d : Dict β) : Nat :=
  u.countP (fun x => ! dictContains x d)

theorem faltantes_nil {β : Type} (d : Dict β) : faltantes [] d = 0 := rfl

theorem faltantes_cons {β : Type} (x : String) (u : List String) (d : Dict β) :
    faltantes (x :: u) d =
      faltantes u d + if dictContains x d then 0 else 1 := by
  rw [faltantes, faltantes, List.countP_cons]
  by_cases h : dictContains x d <;> simp [h]

theorem faltantes_insert_le {β : Type} (u : List String) (k : String) (v : β)
    (d : Dict β) : faltantes u (dictInsert k v d) ≤ faltantes u d := by
  induction u with
  | nil => simp [faltantes_nil]
  | cons x r ih =>
    rw [faltantes_cons, faltantes_cons, dictContains_insert]
    by_cases h1 : k = x
    · subst h1
      by_cases h2 : dictContains k d <;> simp [h2] <;> omega
    · by_cases h2 : dictContains x d <;> simp [h1, h2] <;> omega

theorem faltantes_insert_lt {β : Type} (u : List String) (k : String) (v : β)
    (d : Dict β) (hk : k ∈ u) (hc : dictContains k d = false) :
    faltantes u (dictInsert k v d) + 1 ≤ faltantes u d := by
  induction u with
  | nil => simp at hk
  | cons x r ih =>
    rw [faltantes_cons, faltantes_cons, dictContains_insert]
    rcases List.mem_cons.1 hk with h | h
    · subst h
      have hle := faltantes_insert_le r k v d
      simp [hc]
      omega
    · have hlt := ih h
      by_cases h1 : k = x
      · subst h1
        by_cases h2 : dictContains k d <;> simp [h2] <;> omega
      · by_cases h2 : dictContains x d <;> simp [h1, h2] <;> omega

/-! ## Data model: `Nodo`, `Arista`, `Grafo` (nodo.py, arista.py, grafo.py) -/

structure Nodo (α : Type) where
  id : String
  data : Option α
deriving DecidableEq

structure Arista where
  origen : String
  destino : String
  peso : Rat
deriving DecidableEq

structure Grafo (α : Type) where
  dirigido : Bool
  nodosD : Dict (Nodo α)
  adyacenciaD : Dict (List (String × Rat))
  aristasL : List Arista
deriving DecidableEq

/-- `Grafo.__init__`. -/
def Grafo.nuevo {α : Type} (dirigido : Bool) : Grafo α :=
  { dirigido := dirigido, nodosD := [], adyacenciaD := [], aristasL := [] }

/-- `Grafo.add_nodo`: creates the node if absent and returns it. -/
def Grafo.add_nodo {α : Type} (g : Grafo α) (id_nodo : String) (data : Option α) :
    Grafo α × Nodo α :=
  match dictLookup id_nodo g.nodosD with
  | some n => (g, n)
  | none =>
      let n : Nodo α := { id := id_nodo, data := data }
      ({ g with
          nodosD := dictInsert id_nodo n g.nodosD,
          adyacenciaD := dictInsert id_nodo [] g.adyacenciaD }, n)

/-- `Grafo.add_arista`: appends `(origen → destino)` and, when the graph is
undirected, also the mirror entry, recording `Arista` objects as well. -/
def Grafo.add_arista {α : Type} (g : Grafo α) (origen destino : String)
    (peso : Rat) : Grafo α :=
  let g1 := (g.add_nodo origen none).1
  let g2 := (g1.add_nodo destino none).1
  let a1 : Arista := { origen := origen, destino := destino, peso := peso }
  let g3 := { g2 with
      adyacenciaD := dictAjusta origen (fun l => l ++ [(destino, peso)]) g2.adyacenciaD,
      aristasL := g2.aristasL ++ [a1] }
  if g3.dirigido then g3
  else
    let a2 : Arista := { origen := destino, destino := origen, peso := peso }
    { g3 with
        adyacenciaD := dictAjusta destino (fun l => l ++ [(origen, peso)]) g3.adyacenciaD,
        aristasL := g3.aristasL ++ [a2] }

/-- `Grafo.nodos`: the list of node ids. -/
def Grafo.nodosLista {α : Type} (g : Grafo α) : List String := dictKeys g.nodosD

/-- `Grafo.vecinos`: adjacency entries of a node, `[]` when unknown. -/
def Grafo.vecinos {α : Type} (g : Grafo α) (id_nodo : String) : List (String × Rat) :=
  (dictLookup id_nodo g.adyacenciaD).getD []

/-- `Grafo.grado`: number of adjacency entries of a node. -/
def Grafo.grado {α : Type} (g : Grafo α) (id_nodo : String) : Nat :=
  (g.vecinos id_nodo).length

/-- `Grafo.nodos_hoja`: nodes of degree exactly 1, in adjacency-dict order. -/
def Grafo.nodos_hoja {α : Type} (g : Grafo α) : List String :=
  (dictKeys g.adyacenciaD).filter (fun n => g.grado n = 1)

/-- `Grafo.nodos_salida`: leaf nodes whose name begins with `prefijo`. -/
def Grafo.nodos_salida {α : Type} (g : Grafo α) (prefijo : String) : List String :=
  (g.nodos_hoja).filter (fun n => n.startsWith prefijo)

/-! ## Python exceptions and path reconstruction (`Grafo._reconstruir_camino`) -/

inductive PyErr where
  | valueError (msg : String)
  | keyError (clave : String)
  | noTermina
deriving DecidableEq

/-- The `while actual is not None` walk of `Grafo._reconstruir_camino`,
with explicit fuel: `keyError` is Python's `KeyError` on a parent missing
from the dict, and exhausting the fuel (`noTermina`) models the loop
running forever, which with the fuel chosen in `Grafo.reconstruir` happens
exactly when the parent chain revisits a node. -/
def caminaAtras (padres : Dict (Option String)) : Nat → String → Except PyErr (List String)
  | 0, _ => .error .noTermina
  | fuel + 1, actual =>
    match dictLookup actual padres with
    | none => .error (.keyError actual)
    | some none => .ok [actual]
    | some (some p) =>
      match caminaAtras padres fuel p with
      | .error e => .error e
      | .ok resto => .ok (actual :: resto)

/-- `Grafo._reconstruir_camino`: walk backward from `fin`, reverse, and
return `none` ("no path") when `fin` was never visited or the walk does not
end at `inicio`. -/
def Grafo.reconstruir (padres : Dict (Option String)) (inicio fin : String) :
    Except PyErr (Option (List String)) :=
  if dictContains fin padres then
    match caminaAtras padres (dictLen padres + 1) fin with
    | .error e => .error e
    | .ok camino =>
      let camino2 := camino.reverse
      if camino2.head? = some inicio then .ok (some camino2) else .ok none
  else .ok none

/-! ## BFS (`Grafo.bfs`) -/

/-- All neighbor names occurring anywhere in the adjacency dict; used as
the universe of the termination measures. -/
def nombresVecinos {α : Type} (g : Grafo α) : List String :=
  (g.adyacenciaD.map (fun p => p.2.map Prod.fst)).flatten

theorem dictLookup_mem {β : Type} (k : String) (d : Dict β) (v : β)
    (h : dictLookup k d = some v) : (k, v) ∈ d := by
  induction d with
  | nil => simp [dictLookup] at h
  | cons p r ih =>
    obtain ⟨k2, v2⟩ := p
    by_cases h2 : k2 = k
    · subst h2
      simp [dictLookup] at h
      simp [h]
    · rw [dictLookup_cons, if_neg h2] at h
      exact List.mem_cons_of_mem _ (ih h)

theorem vecinos_mem_nombres {α : Type} (g : Grafo α) (u v : String) (w : Rat)
    (h : (v, w) ∈ g.vecinos u) : v ∈ nombresVecinos g := by
  unfold Grafo.vecinos at h
  cases hl : dictLookup u g.adyacenciaD with
  | none => simp [hl] at h
  | some l =>
    rw [hl] at h
    simp only [Option.getD_some] at h
    have hm : (u, l) ∈ g.adyacenciaD := dictLookup_mem u _ l hl
    rw [nombresVecinos, List.mem_flatten]
    refine ⟨l.map Prod.fst, List.mem_map.2 ⟨(u, l), hm, rfl⟩, ?_⟩
    exact List.mem_map.2 ⟨(v, w), h, rfl⟩

theorem vecinos_length_le {α : Type} (g : Grafo α) (u : String) :
    (g.vecinos u).length ≤ (nombresVecinos g).length := by
  unfold Grafo.vecinos
  cases hl : dictLookup u g.adyacenciaD with
  | none => simp
  | some l =>
    simp only [Option.getD_some]
    have hm : (u, l) ∈ g.adyacenciaD := dictLookup_mem u _ l hl
    have hsub : List.Sublist (l.map Prod.fst) (nombresVecinos g) :=
      List.sublist_flatten_of_mem (List.mem_map.2 ⟨(u, l), hm, rfl⟩)
    have := hsub.length_le
    simpa using this

/-- Inner loop of BFS over the neighbor list of `actual`
(`for vecino, _ in self.vecinos(actual)`): returns the updated distance and
parent dicts, the extended tree-edge list, and the newly enqueued nodes in
discovery order. -/
def bfsVisita (actual : String) (dAct : Nat) :
    List (String × Rat) → Dict Nat → Dict (Option String) →
      List (String × String) →
      Dict Nat × Dict (Option String) × List (String × String) × List String
  | [], dist, padres, arist => (dist, padres, arist, [])
  | (v, _) :: resto, dist, padres, arist =>
    if dictContains v dist then bfsVisita actual dAct resto dist padres arist
    else
      let r := bfsVisita actual dAct resto (dictInsert v (dAct + 1) dist)
        (dictInsert v (some actual) padres) (arist ++ [(actual, v)])
      (r.1, r.2.1, r.2.2.1, v :: r.2.2.2)

theorem bfsVisita_faltantes (actual : String) (dAct : Nat) (univ : List String) :
    ∀ (l : List (String × Rat)) (dist : Dict Nat) (padres : Dict (Option String))
      (arist : List (String × String)), (∀ p ∈ l, p.1 ∈ univ) →
      faltantes univ (bfsVisita actual dAct l dist padres arist).1 +
        (bfsVisita actual dAct l dist padres arist).2.2.2.length ≤
        faltantes univ dist := by
  intro l
  induction l with
  | nil => intro dist padres arist _; simp [bfsVisita]
  | cons p resto ih =>
    obtain ⟨v, w⟩ := p
    intro dist padres arist hmem
    by_cases hv : dictContains v dist
    · rw [show bfsVisita actual dAct ((v, w) :: resto) dist padres arist =
          bfsVisita actual dAct resto dist padres arist by simp [bfsVisita, hv]]
      exact ih dist padres arist (fun q hq => hmem q (List.mem_cons_of_mem _ hq))
    · have hv' : dictContains v dist = false := by simpa using hv
      rw [show bfsVisita actual dAct ((v, w) :: resto) dist padres arist =
          (let r := bfsVisita actual dAct resto (dictInsert v (dAct + 1) dist)
            (dictInsert v (some actual) padres) (arist ++ [(actual, v)])
           (r.1, r.2.1, r.2.2.1, v :: r.2.2.2)) by simp [bfsVisita, hv]]
      have h1 := ih (dictInsert v (dAct + 1) dist) (dictInsert v (some actual) padres)
        (arist ++ [(actual, v)]) (fun q hq => hmem q (List.mem_cons_of_mem _ hq))
      have h2 := faltantes_insert_lt univ v (dAct + 1) dist
        (hmem (v, w) (List.mem_cons_self _ _)) hv'
      simp only [List.length_cons]
      omega

/-- Result of the BFS loop before the bundle is assembled. -/
structure BfsSalida where
  dist : Dict Nat
  padres : Dict (Option String)
  arist : List (String × String)
  orden : List String

/-- The `while cola` loop of `Grafo.bfs` (FIFO queue; visit = dequeue into
`orden`, neighbors handled by `bfsVisita`). -/
def bfsLoop {α : Type} (g : Grafo α) (cola : List String) (dist : Dict Nat)
    (padres : Dict (Option String)) (arist : List (String × String))
    (orden : List String) : BfsSalida :=
  match cola with
  | [] => { dist := dist, padres := padres, arist := arist, orden := orden }
  | actual :: resto =>
    let dAct := (dictLookup actual dist).getD 0
    let r := bfsVisita actual dAct (g.vecinos actual) dist padres arist
    bfsLoop g (resto ++ r.2.2.2) r.1 r.2.1 r.2.2.1 (orden ++ [actual])
termination_by 2 * faltantes (nombresVecinos g) dist + cola.length
decreasing_by
  have hsub : ∀ p ∈ g.vecinos actual, p.1 ∈ nombresVecinos g := by
    intro p hp
    exact vecinos_mem_nombres g actual p.1 p.2 (by simpa using hp)
  have hle := bfsVisita_faltantes actual ((dictLookup actual dist).getD 0)
    (nombresVecinos g) (g.vecinos actual) dist padres arist hsub
  simp only [List.length_append, List.length_cons]
  omega

/-- `Grafo._construir_arbol_desde_aristas`: fresh directed graph holding the
root and one edge per `(padre, hijo)` pair. -/
def Grafo.construirArbol {α : Type} (raiz : String)
    (aristas : List (String × String)) : Grafo α :=
  let arbol : Grafo α := ((Grafo.nuevo true).add_nodo raiz none).1
  aristas.foldl (fun a p => a.add_arista p.1 p.2 1) arbol

/-- Result bundle of `Grafo.bfs` (the advisory `time` field is wall-clock
instrumentation and is not embedded). -/
structure BfsRes (α : Type) where
  distances : Dict Nat
  parents : Dict (Option String)
  path : Option (List String)
  tree : Grafo α
  order : List String

/-- The loop of `Grafo.bfs` at its initial state: queue `[start]`,
`distancias = {start: 0}`, `padres = {start: None}`. -/
def bfsSalidaDe {α : Type} (g : Grafo α) (start : String) : BfsSalida :=
  bfsLoop g [start] (dictInsert start 0 []) (dictInsert start none []) [] []

/-- `Grafo.bfs`: raises `ValueError` on an unknown start, otherwise runs the
FIFO loop from `start` and assembles the bundle; `path` is only
reconstructed when a goal is supplied. -/
def Grafo.bfs {α : Type} (g : Grafo α) (start : String) (goal : Option String) :
    Except PyErr (BfsRes α) :=
  if dictContains start g.nodosD then
    let s := bfsSalidaDe g start
    let ruta : Except PyErr (Option (List String)) :=
      match goal with
      | none => .ok none
      | some go => Grafo.reconstruir s.padres start go
    match ruta with
    | .error e => .error e
    | .ok r =>
      .ok { distances := s.dist, parents := s.padres, path := r,
            tree := Grafo.construirArbol start s.arist, order := s.orden }
  else .error (.valueError "start no existe en el grafo.")

/-! ## DFS (`Grafo.dfs`)

The recursive closure `_dfs` is embedded as a stack machine whose frames
are pairs `(u, remaining neighbors of u)`: pushing `(v, vecinos v)` on
top of the current frame is exactly the recursive call `_dfs(v)`, and a
frame is resumed once the frame above it is exhausted.  `orden` receives a
node when its frame is pushed, matching the `orden_visita.append(u)` at
the top of `_dfs`. -/

/-- Result of the DFS recursion (the internal `profundidad` dict included,
it is consumed by the deepest-node search but not returned by `dfs`). -/
structure DfsSalida where
  padres : Dict (Option String)
  prof : Dict Nat
  arist : List (String × String)
  orden : List String

def sumaTam (pila : List (String × List (String × Rat))) : Nat :=
  (pila.map (fun fr => fr.2.length)).sum

def dfsRun {α : Type} (g : Grafo α) (padres : Dict (Option String))
    (prof : Dict Nat) (arist : List (String × String)) (orden : List String)
    (pila : List (String × List (String × Rat)))
    (hp : ∀ fr ∈ pila, ∀ q ∈ fr.2, q.1 ∈ nombresVecinos g) : DfsSalida :=
  match pila, hp with
  | [], _ => { padres := padres, prof := prof, arist := arist, orden := orden }
  | (_, []) :: resto, hp =>
      dfsRun g padres prof arist orden resto
        (fun fr hfr => hp fr (List.mem_cons_of_mem _ hfr))
  | (u, (v, w) :: vs) :: resto, hp =>
      if hvp : dictContains v padres then
        dfsRun g padres prof arist orden ((u, vs) :: resto)
          (by
            intro fr hfr q hq
            rcases List.mem_cons.1 hfr with h | h
            · subst h
              exact hp (u, (v, w) :: vs) (List.mem_cons_self _ _) q
                (List.mem_cons_of_mem _ hq)
            · exact hp fr (List.mem_cons_of_mem _ h) q hq)
      else
        dfsRun g (dictInsert v (some u) padres)
          (dictInsert v ((dictLookup u prof).getD 0 + 1) prof)
          (arist ++ [(u, v)]) (orden ++ [v])
          ((v, g.vecinos v) :: (u, vs) :: resto)
          (by
            intro fr hfr q hq
            rcases List.mem_cons.1 hfr with h | h
            · subst h
              exact vecinos_mem_nombres g v q.1 q.2 (by simpa using hq)
            · rcases List.mem_cons.1 h with h2 | h2
              · subst h2
                exact hp (u, (v, w) :: vs) (List.mem_cons_self _ _) q
                  (List.mem_cons_of_mem _ hq)
              · exact hp fr (List.mem_cons_of_mem _ h2) q hq)
termination_by
  (2 * (nombresVecinos g).length + 2) * faltantes (nombresVecinos g) padres +
    2 * sumaTam pila + pila.length
decreasing_by
  · simp only [sumaTam, List.map_cons, List.sum_cons, List.length_cons]
    omega
  · simp only [sumaTam, List.map_cons, List.sum_cons, List.length_cons]
    omega
  · have hv : v ∈ nombresVecinos g :=
      hp (u, (v, w) :: vs) (List.mem_cons_self _ _) (v, w) (List.mem_cons_self _ _)
    have hc : dictContains v padres = false := by simpa using hvp
    have h1 := faltantes_insert_lt (nombresVecinos g) v (some u) padres hv hc
    have h2 := vecinos_length_le g v
    have h4 : (2 * (nombresVecinos g).length + 2) *
        (faltantes (nombresVecinos g) (dictInsert v (some u) padres) + 1) ≤
        (2 * (nombresVecinos g).length + 2) * faltantes (nombresVecinos g) padres :=
      Nat.mul_le_mul_left _ h1
    rw [Nat.mul_add, Nat.mul_one] at h4
    simp only [sumaTam, List.map_cons, List.sum_cons, List.length_cons]
    omega

/-- The DFS recursion started from `start`: the initial state mirrors
`padres = {start: None}`, `profundidad = {start: 0}` and the call
`_dfs(start)` (which first appends `start` to `orden_visita`). -/
def Grafo.dfsNucleo {α : Type} (g : Grafo α) (start : String) : DfsSalida :=
  dfsRun g (dictInsert start none []) (dictInsert start 0 []) [] [start]
    [(start, g.vecinos start)]
    (by
      intro fr hfr q hq
      rcases List.mem_cons.1 hfr with h | h
      · subst h
        exact vecinos_mem_nombres g start q.1 q.2 (by simpa using hq)
      · simp at h)

/-- Python `max(profundidad, key=lambda n: profundidad[n])`: the first key
(in dict insertion order) with maximal value wins; `none` on an empty dict,
where Python raises `ValueError`. -/
def primerMax (prof : Dict Nat) : Option String :=
  match prof with
  | [] => none
  | (k, v) :: resto =>
    some ((resto.foldl (fun best kv => if best.2 < kv.2 then kv else best) (k, v)).1)

/-- Result bundle of `Grafo.dfs` (again without the advisory `time`). -/
structure DfsRes (α : Type) where
  parents : Dict (Option String)
  tree : Grafo α
  dfs_path : Option (List String)
  deepest_path : Option (List String)
  order : List String

/-- `Grafo.dfs`: raises `ValueError` on an unknown start; otherwise runs the
recursion, reconstructs the goal route when a goal is supplied, and always
reconstructs `deepest_path` toward the first node of maximal depth. -/
def Grafo.dfs {α : Type} (g : Grafo α) (start : String) (goal : Option String) :
    Except PyErr (DfsRes α) :=
  if dictContains start g.nodosD then
    let s := g.dfsNucleo start
    let ruta : Except PyErr (Option (List String)) :=
      match goal with
      | none => .ok none
      | some go => Grafo.reconstruir s.padres start go
    match ruta with
    | .error e => .error e
    | .ok rutaDfs =>
      match primerMax s.prof with
      | none => .error (.valueError "max() arg is an empty sequence")
      | some m =>
        match Grafo.reconstruir s.padres start m with
        | .error e => .error e
        | .ok deepest =>
          .ok { parents := s.padres, tree := Grafo.construirArbol start s.arist,
                dfs_path := rutaDfs, deepest_path := deepest, order := s.orden }
  else .error (.valueError "start no existe en el grafo.")

/-! ## Exit resolution (`run_bfs_campus` in src/ui/app.py) -/

/-- Exit resolution: restrict the prefix-matching leaves to the keys of a
finished BFS `distances` dict and pick the first one of minimal distance
(Python `min` with a key function keeps the first minimum); `none` models
the "No se encontró ninguna salida alcanzable" outcome. -/
def Grafo.buscarSalidaBfs {α : Type} (g : Grafo α) (dist : Dict Nat)
    (prefijo : String) : Option String :=
  let salidas := g.nodos_salida prefijo
  let reach := salidas.filter (fun s => dictContains s dist)
  match reach with
  | [] => none
  | s0 :: resto =>
    some (resto.foldl (fun best s =>
      if (dictLookup s dist).getD 0 < (dictLookup best dist).getD 0 then s else best) s0)

/-! ## Edge-list loader (`Grafo.desde_archivo`) -/

inductive LineaError where
  | lineaInvalida (linea : String)
  | pesoInvalido (linea : String)
deriving DecidableEq

inductive LoadError where
  | noEncontrado (ruta : String)
  | alLeer (ruta : String) (e : LineaError)
deriving DecidableEq

/-- The line loop of `Grafo.desde_archivo`; `aFloat` abstracts Python's
`float()` (`none` = `ValueError`).  Lines are stripped, blank lines and
`#`-comments skipped, fewer than two fields or a malformed third field
abort with the offending (stripped) line, and a missing third field
defaults the weight to 1. -/
def cargarLineas {α : Type} (aFloat : String → Option Rat) (separador : String) :
    Grafo α → List String → Except LineaError (Grafo α)
  | g, [] => .ok g
  | g, linea :: resto =>
    let l := linea.trim
    if l = "" || l.startsWith "#" then cargarLineas aFloat separador g resto
    else
      let partes := l.splitOn separador
      if partes.length < 2 then .error (.lineaInvalida l)
      else
        let origen := (partes.getD 0 "").trim
        let destino := (partes.getD 1 "").trim
        if partes.length ≥ 3 then
          match aFloat (partes.getD 2 "") with
          | none => .error (.pesoInvalido l)
          | some peso =>
            cargarLineas aFloat separador (g.add_arista origen destino peso) resto
        else cargarLineas aFloat separador (g.add_arista origen destino 1) resto

/-- `Grafo.desde_archivo`: `contenido = none` models `FileNotFoundError`
(re-raised with the path); a line failure is re-wrapped with the path by the
final `except` clause, keeping the two failure kinds distinct. -/
def Grafo.desdeArchivo {α : Type} (aFloat : String → Option Rat)
    (contenido : Option (List String)) (ruta : String) (dirigido : Bool)
    (separador : String) : Except LoadError (Grafo α) :=
  match contenido with
  | none => .error (.noEncontrado ruta)
  | some lineas =>
    match cargarLineas aFloat separador (Grafo.nuevo dirigido) lineas with
    | .error e => .error (.alLeer ruta e)
    | .ok g => .ok g

/-! ## Ground truth for distances: hop-count paths -/

/-- `Camino g inicio v n`: there is a walk of `n` adjacency hops from
`inicio` to `v`.  The spec's "true minimum hop count" of `v` is the least
such `n`. -/
inductive Camino {α : Type} (g : Grafo α) (inicio : String) : String → Nat → Prop where
  | refl : Camino g inicio inicio 0
  | paso {u v : String} {n : Nat} {w : Rat} :
      Camino g inicio u n → (v, w) ∈ g.vecinos u → Camino g inicio v (n + 1)

/-- A sequence of `add_arista` calls, as used when a graph is built from an
edge list. -/
def aplicarAristas {α : Type} (ops : List (String × String × Rat)) (g : Grafo α) :
    Grafo α :=
  ops.foldl (fun a t => a.add_arista t.1 t.2.1 t.2.2) g

/-! ## Well-formed parent maps and reconstruction lemmas -/

theorem dictLookup_some_mem {β : Type} {k : String} {d : Dict β} {v : β}
    (h : dictLookup k d = some v) : k ∈ dictKeys d := by
  rw [mem_dictKeys]
  simp [dictContains, h]

theorem dictContains_lookup {β : Type} {k : String} {d : Dict β}
    (h : dictContains k d = true) : ∃ v, dictLookup k d = some v := by
  rw [dictContains] at h
  cases hv : dictLookup k d with
  | none => rw [hv] at h; simp at h
  | some v => exact ⟨v, rfl⟩

theorem nodup_subset_length {l l2 : List String} (hn : l.Nodup)
    (hs : ∀ x ∈ l, x ∈ l2) : l.length ≤ l2.length := by
  classical
  have h1 : l.toFinset.card = l.length := List.toFinset_card_of_nodup hn
  have h2 : l.toFinset ⊆ l2.toFinset := by
    intro x hx
    rw [List.mem_toFinset] at hx ⊢
    exact hs x hx
  have h3 : l2.toFinset.card ≤ l2.length := l2.toFinset_card_le
  have h4 := Finset.card_le_card h2
  omega

theorem dictKeys_length {β : Type} (d : Dict β) : (dictKeys d).length = dictLen d := by
  simp [dictKeys, dictLen]

/-- The shape shared by the parent/depth dicts produced by both traversals:
`inicio` is the unique root (parent sentinel `none`, depth 0), the two
dicts have the same keys, and every child is one level deeper than its
parent. -/
structure InvPadres (padres : Dict (Option String)) (prof : Dict Nat)
    (inicio : String) : Prop where
  claves : dictKeys padres = dictKeys prof
  inicioPadre : dictLookup inicio padres = some none
  inicioProf : dictLookup inicio prof = some 0
  soloInicio : ∀ k, dictLookup k padres = some none → k = inicio
  paso : ∀ k p, dictLookup k padres = some (some p) →
    ∃ dk dp, dictLookup k prof = some dk ∧ dictLookup p prof = some dp ∧ dk = dp + 1

theorem caminaAtras_invPadres {padres : Dict (Option String)} {prof : Dict Nat}
    {inicio : String} (h : InvPadres padres prof inicio) :
    ∀ (dk : Nat) (k : String), dictLookup k prof = some dk →
      ∃ camino : List String, camino.head? = some k ∧
        camino.getLast? = some inicio ∧ camino.length = dk + 1 ∧ camino.Nodup ∧
        (∀ x ∈ camino, ∃ dx, dictLookup x prof = some dx ∧ dx ≤ dk) ∧
        (∀ fuel, camino.length ≤ fuel → caminaAtras padres fuel k = .ok camino) := by
  intro dk
  induction dk using Nat.strong_induction_on with
  | _ dk ih =>
    intro k hk
    have hkm : k ∈ dictKeys prof := dictLookup_some_mem hk
    have hkp : k ∈ dictKeys padres := by rw [h.claves]; exact hkm
    obtain ⟨x, hx⟩ := dictContains_lookup ((mem_dictKeys k padres).1 hkp)
    cases x with
    | none =>
      have hki : k = inicio := h.soloInicio k hx
      subst hki
      have h0 : dk = 0 := by
        have h2 := h.inicioProf
        rw [hk] at h2
        exact Option.some_inj.1 h2
      subst h0
      refine ⟨[k], rfl, rfl, rfl, List.nodup_singleton k, ?_, ?_⟩
      · intro x hx2
        simp at hx2
        subst hx2
        exact ⟨0, hk, Nat.le_refl 0⟩
      · intro fuel hf
        cases fuel with
        | zero => simp at hf
        | succ f => simp [caminaAtras, hx]
    | some p =>
      obtain ⟨dk2, dp, hdk2, hdp, heq⟩ := h.paso k p hx
      rw [hk] at hdk2
      have hdkeq : dk = dk2 := Option.some_inj.1 hdk2
      subst hdkeq
      subst heq
      obtain ⟨caminoP, hHead, hLast, hLen, hNodup, hBound, hRun⟩ :=
        ih dp (Nat.lt_succ_self dp) p hdp
      obtain ⟨b, t, hbt⟩ : ∃ b t, caminoP = b :: t := by
        cases caminoP with
        | nil => simp at hHead
        | cons b t => exact ⟨b, t, rfl⟩
      refine ⟨k :: caminoP, rfl, ?_, ?_, ?_, ?_, ?_⟩
      · rw [hbt, List.getLast?_cons_cons, ← hbt]
        exact hLast
      · simp [hLen]
      · rw [List.nodup_cons]
        refine ⟨?_, hNodup⟩
        intro hmem
        obtain ⟨dx, hdx, hle⟩ := hBound k hmem
        rw [hk] at hdx
        have : dp + 1 = dx := Option.some_inj.1 hdx
        omega
      · intro x hx2
        rcases List.mem_cons.1 hx2 with h2 | h2
        · subst h2
          exact ⟨dp + 1, hk, Nat.le_refl _⟩
        · obtain ⟨dx, hdx, hle⟩ := hBound x h2
          exact ⟨dx, hdx, by omega⟩
      · intro fuel hf
        cases fuel with
        | zero => simp at hf
        | succ f =>
          have hf2 : caminoP.length ≤ f := by
            simp at hf
            omega
          have hstep : caminaAtras padres (f + 1) k =
              match caminaAtras padres f p with
              | .error e => .error e
              | .ok resto => .ok (k :: resto) := by
            simp [caminaAtras, hx]
          rw [hstep, hRun f hf2]

theorem reconstruir_none {padres : Dict (Option String)} {inicio fin : String}
    (h : dictContains fin padres = false) :
    Grafo.reconstruir padres inicio fin = .ok none := by
  unfold Grafo.reconstruir
  simp [h]

theorem reconstruir_invPadres_mem {padres : Dict (Option String)} {prof : Dict Nat}
    {inicio : String} (h : InvPadres padres prof inicio) (fin : String) (dk : Nat)
    (hfin : dictLookup fin prof = some dk) :
    ∃ camino : List String, Grafo.reconstruir padres inicio fin = .ok (some camino) ∧
      camino.length = dk + 1 ∧ camino.head? = some inicio ∧
      camino.getLast? = some fin := by
  obtain ⟨c, hHead, hLast, hLen, hNodup, hBound, hRun⟩ :=
    caminaAtras_invPadres h dk fin hfin
  have hsub : ∀ x ∈ c, x ∈ dictKeys padres := by
    intro x hx
    obtain ⟨dx, hdx, _⟩ := hBound x hx
    rw [h.claves]
    exact dictLookup_some_mem hdx
  have hclen : c.length ≤ dictLen padres := by
    have h2 := nodup_subset_length hNodup hsub
    rw [dictKeys_length] at h2
    exact h2
  have hrun := hRun (dictLen padres + 1) (by omega)
  have hcont : dictContains fin padres = true := by
    rw [← mem_dictKeys, h.claves]
    exact dictLookup_some_mem hfin
  refine ⟨c.reverse, ?_, by simp [hLen], ?_, ?_⟩
  · unfold Grafo.reconstruir
    rw [if_pos hcont, hrun]
    simp [List.head?_reverse, hLast]
  · rw [List.head?_reverse]
    exact hLast
  · rw [List.getLast?_reverse]
    exact hHead

theorem reconstruir_invPadres_ok {padres : Dict (Option String)} {prof : Dict Nat}
    {inicio : String} (h : InvPadres padres prof inicio) (fin : String) :
    ∃ res, Grafo.reconstruir padres inicio fin = .ok res := by
  by_cases hc : dictContains fin padres
  · have hfm : fin ∈ dictKeys prof := by
      rw [← h.claves]
      exact (mem_dictKeys fin padres).2 hc
    obtain ⟨dk, hdk⟩ := dictContains_lookup ((mem_dictKeys fin prof).1 hfm)
    obtain ⟨c, hrec, _, _, _⟩ := reconstruir_invPadres_mem h fin dk hdk
    exact ⟨some c, hrec⟩
  · exact ⟨none, reconstruir_none (by simpa using hc)⟩

/-- A parent map whose chains stay inside the dict and never revisit a node:
witnessed by a rank that strictly decreases from child to parent.  Both
traversals produce such maps (take the depth dict as the rank). -/
def BuenosPadres (padres : Dict (Option String)) : Prop :=
  ∃ rango : Dict Nat, dictKeys rango = dictKeys padres ∧
    ∀ k p, dictLookup k padres = some (some p) →
      ∃ rk rp, dictLookup k rango = some rk ∧ dictLookup p rango = some rp ∧ rp < rk

theorem caminaAtras_buenos {padres : Dict (Option String)} {rango : Dict Nat}
    (hkeys : dictKeys rango = dictKeys padres)
    (hdec : ∀ k p, dictLookup k padres = some (some p) →
      ∃ rk rp, dictLookup k rango = some rk ∧ dictLookup p rango = some rp ∧ rp < rk) :
    ∀ (rk : Nat) (k : String), dictLookup k rango = some rk →
      ∃ camino : List String, camino.head? = some k ∧ camino.Nodup ∧
        (∀ x ∈ camino, ∃ rx, dictLookup x rango = some rx ∧ rx ≤ rk) ∧
        (∀ fuel, camino.length ≤ fuel → caminaAtras padres fuel k = .ok camino) := by
  intro rk
  induction rk using Nat.strong_induction_on with
  | _ rk ih =>
    intro k hk
    have hkp : k ∈ dictKeys padres := by rw [← hkeys]; exact dictLookup_some_mem hk
    obtain ⟨x, hx⟩ := dictContains_lookup ((mem_dictKeys k padres).1 hkp)
    cases x with
    | none =>
      refine ⟨[k], rfl, List.nodup_singleton k, ?_, ?_⟩
      · intro x hx2
        simp at hx2
        subst hx2
        exact ⟨rk, hk, Nat.le_refl rk⟩
      · intro fuel hf
        cases fuel with
        | zero => simp at hf
        | succ f => simp [caminaAtras, hx]
    | some p =>
      obtain ⟨rk2, rp, hrk2, hrp, hlt⟩ := hdec k p hx
      rw [hk] at hrk2
      have hre : rk = rk2 := Option.some_inj.1 hrk2
      subst hre
      obtain ⟨caminoP, hHead, hNodup, hBound, hRun⟩ := ih rp hlt p hrp
      refine ⟨k :: caminoP, rfl, ?_, ?_, ?_⟩
      · rw [List.nodup_cons]
        refine ⟨?_, hNodup⟩
        intro hmem
        obtain ⟨rx, hrx, hle⟩ := hBound k hmem
        rw [hk] at hrx
        have : rk = rx := Option.some_inj.1 hrx
        omega
      · intro x hx2
        rcases List.mem_cons.1 hx2 with h2 | h2
        · subst h2
          exact ⟨rk, hk, Nat.le_refl rk⟩
        · obtain ⟨rx, hrx, hle⟩ := hBound x h2
          exact ⟨rx, hrx, by omega⟩
      · intro fuel hf
        cases fuel with
        | zero => simp at hf
        | succ f =>
          have hf2 : caminoP.length ≤ f := by
            simp at hf
            omega
          have hstep : caminaAtras padres (f + 1) k =
              match caminaAtras padres f p with
              | .error e => .error e
              | .ok resto => .ok (k :: resto) := by
            simp [caminaAtras, hx]
          rw [hstep, hRun f hf2]

/-! ## BFS invariant machinery -/

theorem dictContains_insert_self {β : Type} (k : String) (v : β) (d : Dict β) :
    dictContains k (dictInsert k v d) = true := by
  rw [dictContains_insert]
  simp

theorem dictContains_of_insert_false {β : Type} {x k : String} {v : β} {d : Dict β}
    (h : dictContains x (dictInsert k v d) = false) : dictContains x d = false := by
  rw [dictContains_insert] at h
  rcases Bool.or_eq_false_iff.1 h with ⟨_, h2⟩
  exact h2

theorem dictKeys_insert_fresh {β : Type} {k : String} (v : β) {d : Dict β}
    (h : dictContains k d = false) :
    dictKeys (dictInsert k v d) = dictKeys d ++ [k] := by
  rw [dictKeys_insert, if_neg (by simp [h])]

theorem bfsVisita_nil (actual : String) (dAct : Nat) (dist : Dict Nat)
    (padres : Dict (Option String)) (arist : List (String × String)) :
    bfsVisita actual dAct [] dist padres arist = (dist, padres, arist, []) := rfl

theorem bfsVisita_cons_visto {v : String} {dist : Dict Nat}
    (actual : String) (dAct : Nat) (w : Rat) (resto : List (String × Rat))
    (padres : Dict (Option String)) (arist : List (String × String))
    (hv : dictContains v dist = true) :
    bfsVisita actual dAct ((v, w) :: resto) dist padres arist =
      bfsVisita actual dAct resto dist padres arist := by
  simp [bfsVisita, hv]

theorem bfsVisita_cons_nuevo {v : String} {dist : Dict Nat}
    (actual : String) (dAct : Nat) (w : Rat) (resto : List (String × Rat))
    (padres : Dict (Option String)) (arist : List (String × String))
    (hv : dictContains v dist = false) :
    bfsVisita actual dAct ((v, w) :: resto) dist padres arist =
      ((bfsVisita actual dAct resto (dictInsert v (dAct + 1) dist)
          (dictInsert v (some actual) padres) (arist ++ [(actual, v)])).1,
       (bfsVisita actual dAct resto (dictInsert v (dAct + 1) dist)
          (dictInsert v (some actual) padres) (arist ++ [(actual, v)])).2.1,
       (bfsVisita actual dAct resto (dictInsert v (dAct + 1) dist)
          (dictInsert v (some actual) padres) (arist ++ [(actual, v)])).2.2.1,
       v :: (bfsVisita actual dAct resto (dictInsert v (dAct + 1) dist)
          (dictInsert v (some actual) padres) (arist ++ [(actual, v)])).2.2.2) := by
  simp [bfsVisita, hv]

/-- Everything the BFS step needs to know about one pass of the inner
neighbor loop. -/
structure VisitaSpec (actual : String) (dAct : Nat) (l : List (String × Rat))
    (dist : Dict Nat) (padres : Dict (Option String))
    (arist : List (String × String))
    (r : Dict Nat × Dict (Option String) × List (String × String) × List String) :
    Prop where
  clavesDist : dictKeys r.1 = dictKeys dist ++ r.2.2.2
  clavesPadres : dictKeys r.2.1 = dictKeys padres ++ r.2.2.2
  nodupNuevos : r.2.2.2.Nodup
  nuevosProp : ∀ v ∈ r.2.2.2, (∃ w, (v, w) ∈ l) ∧ dictContains v dist = false
  sinCambio : ∀ k, ¬ k ∈ r.2.2.2 →
    dictLookup k r.1 = dictLookup k dist ∧ dictLookup k r.2.1 = dictLookup k padres
  nuevosVal : ∀ v ∈ r.2.2.2,
    dictLookup v r.1 = some (dAct + 1) ∧ dictLookup v r.2.1 = some (some actual)
  aristEq : r.2.2.1 = arist ++ r.2.2.2.map (fun v => (actual, v))
  cerrado : ∀ v w, (v, w) ∈ l → ∃ dv, dictLookup v r.1 = some dv ∧
    (dv ≤ dAct + 1 ∨ dictLookup v dist = some dv)

theorem bfsVisita_spec (actual : String) (dAct : Nat) :
    ∀ (l : List (String × Rat)) (dist : Dict Nat) (padres : Dict (Option String))
      (arist : List (String × String)), dictKeys padres = dictKeys dist →
      VisitaSpec actual dAct l dist padres arist
        (bfsVisita actual dAct l dist padres arist) := by
  intro l
  induction l with
  | nil =>
    intro dist padres arist _
    rw [bfsVisita_nil]
    exact {
      clavesDist := by simp
      clavesPadres := by simp
      nodupNuevos := by simp
      nuevosProp := by simp
      sinCambio := by simp
      nuevosVal := by simp
      aristEq := by simp
      cerrado := by simp }
  | cons p resto ih =>
    obtain ⟨v, w⟩ := p
    intro dist padres arist hdp
    by_cases hv : dictContains v dist
    · rw [bfsVisita_cons_visto actual dAct w resto padres arist hv]
      have s := ih dist padres arist hdp
      obtain ⟨dv0, hdv0⟩ := dictContains_lookup hv
      have hvnot : ¬ v ∈ (bfsVisita actual dAct resto dist padres arist).2.2.2 := by
        intro hmem
        have h2 := (s.nuevosProp v hmem).2
        rw [hv] at h2
        simp at h2
      exact {
        clavesDist := s.clavesDist
        clavesPadres := s.clavesPadres
        nodupNuevos := s.nodupNuevos
        nuevosProp := fun x hx =>
          ⟨⟨(s.nuevosProp x hx).1.choose,
            List.mem_cons_of_mem _ (s.nuevosProp x hx).1.choose_spec⟩,
            (s.nuevosProp x hx).2⟩
        sinCambio := s.sinCambio
        nuevosVal := s.nuevosVal
        aristEq := s.aristEq
        cerrado := by
          intro v2 w2 hmem
          rcases List.mem_cons.1 hmem with h2 | h2
          · have he1 : v2 = v := congrArg Prod.fst h2
            subst he1
            refine ⟨dv0, ?_, Or.inr hdv0⟩
            rw [(s.sinCambio v2 hvnot).1]
            exact hdv0
          · exact s.cerrado v2 w2 h2 }
    · have hv' : dictContains v dist = false := by simpa using hv
      rw [bfsVisita_cons_nuevo actual dAct w resto padres arist hv']
      have hvp : dictContains v padres = false := by
        cases hvp2 : dictContains v padres
        · rfl
        · have hm : v ∈ dictKeys padres := (mem_dictKeys v padres).2 hvp2
          rw [hdp, mem_dictKeys, hv'] at hm
          simp at hm
      have hdp1 : dictKeys (dictInsert v (some actual) padres) =
          dictKeys (dictInsert v (dAct + 1) dist) := by
        rw [dictKeys_insert_fresh _ hvp, dictKeys_insert_fresh _ hv', hdp]
      have s := ih (dictInsert v (dAct + 1) dist) (dictInsert v (some actual) padres)
        (arist ++ [(actual, v)]) hdp1
      set r1 := bfsVisita actual dAct resto (dictInsert v (dAct + 1) dist)
        (dictInsert v (some actual) padres) (arist ++ [(actual, v)]) with hr1
      have hvnot1 : ¬ v ∈ r1.2.2.2 := by
        intro hmem
        have h2 := (s.nuevosProp v hmem).2
        rw [dictContains_insert_self] at h2
        simp at h2
      exact {
        clavesDist := by
          show dictKeys r1.1 = dictKeys dist ++ v :: r1.2.2.2
          rw [s.clavesDist, dictKeys_insert_fresh _ hv']
          simp
        clavesPadres := by
          show dictKeys r1.2.1 = dictKeys padres ++ v :: r1.2.2.2
          rw [s.clavesPadres, dictKeys_insert_fresh _ hvp]
          simp
        nodupNuevos := by
          show (v :: r1.2.2.2).Nodup
          rw [List.nodup_cons]
          exact ⟨hvnot1, s.nodupNuevos⟩
        nuevosProp := by
          intro x hx
          rcases List.mem_cons.1 hx with h2 | h2
          · subst h2
            exact ⟨⟨w, List.mem_cons_self _ _⟩, hv'⟩
          · refine ⟨⟨(s.nuevosProp x h2).1.choose,
              List.mem_cons_of_mem _ (s.nuevosProp x h2).1.choose_spec⟩, ?_⟩
            exact dictContains_of_insert_false (s.nuevosProp x h2).2
        sinCambio := by
          intro k hk
          have hk1 : ¬ k ∈ r1.2.2.2 := fun h2 => hk (List.mem_cons_of_mem _ h2)
          have hkv : ¬ v = k := fun h2 => hk (h2 ▸ List.mem_cons_self _ _)
          obtain ⟨e1, e2⟩ := s.sinCambio k hk1
          constructor
          · show dictLookup k r1.1 = dictLookup k dist
            rw [e1, dictLookup_insert, if_neg hkv]
          · show dictLookup k r1.2.1 = dictLookup k padres
            rw [e2, dictLookup_insert, if_neg hkv]
        nuevosVal := by
          intro x hx
          rcases List.mem_cons.1 hx with h2 | h2
          · subst h2
            obtain ⟨e1, e2⟩ := s.sinCambio x hvnot1
            constructor
            · show dictLookup x r1.1 = some (dAct + 1)
              rw [e1, dictLookup_insert, if_pos rfl]
            · show dictLookup x r1.2.1 = some (some actual)
              rw [e2, dictLookup_insert, if_pos rfl]
          · exact s.nuevosVal x h2
        aristEq := by
          show r1.2.2.1 = arist ++ (v :: r1.2.2.2).map (fun x => (actual, x))
          rw [s.aristEq]
          simp
        cerrado := by
          intro v2 w2 hmem
          rcases List.mem_cons.1 hmem with h2 | h2
          · have he1 : v2 = v := congrArg Prod.fst h2
            subst he1
            obtain ⟨e1, _⟩ := s.sinCambio v2 hvnot1
            refine ⟨dAct + 1, ?_, Or.inl (Nat.le_refl _)⟩
            show dictLookup v2 r1.1 = some (dAct + 1)
            rw [e1, dictLookup_insert, if_pos rfl]
          · obtain ⟨dv, hdv, hcase⟩ := s.cerrado v2 w2 h2
            refine ⟨dv, hdv, ?_⟩
            rcases hcase with h3 | h3
            · exact Or.inl h3
            · rw [dictLookup_insert] at h3
              by_cases h4 : v = v2
              · rw [if_pos h4] at h3
                have h5 := Option.some_inj.1 h3
                exact Or.inl (by omega)
              · rw [if_neg h4] at h3
                exact Or.inr h3 }

/-- The invariant of the BFS loop.  `orden ++ cola = dictKeys dist` records
that the visited-when-enqueued discipline keeps `distancias` keys in
enqueue order, split into already-dequeued and still-queued nodes; `capas`
is the classical two-layer shape of the BFS queue; `cerrado` is the edge
relaxation property of dequeued nodes on which optimality rests; the
`arbol*` fields describe the accumulated tree-edge list. -/
structure BfsInv {α : Type} (g : Grafo α) (inicio : String) (cola : List String)
    (dist : Dict Nat) (padres : Dict (Option String))
    (arist : List (String × String)) (orden : List String) : Prop where
  ordenCola : orden ++ cola = dictKeys dist
  nodup : (dictKeys dist).Nodup
  clavesPadres : dictKeys padres = dictKeys dist
  inicioDist : dictLookup inicio dist = some 0
  inicioPadre : dictLookup inicio padres = some none
  soloInicio : ∀ k, dictLookup k padres = some none → k = inicio
  paso : ∀ k p, dictLookup k padres = some (some p) →
    ∃ dk dp, dictLookup k dist = some dk ∧ dictLookup p dist = some dp ∧
      dk = dp + 1 ∧ ∃ w, (k, w) ∈ g.vecinos p
  antes : ∀ k p, dictLookup k padres = some (some p) →
    ∃ pre post, orden ++ cola = pre ++ k :: post ∧ p ∈ pre ∧ p ∈ orden
  cerrado : ∀ u ∈ orden, ∀ v w, (v, w) ∈ g.vecinos u →
    ∃ du dv, dictLookup u dist = some du ∧ dictLookup v dist = some dv ∧ dv ≤ du + 1
  capas : ∃ d f b, cola = f ++ b ∧ (∀ x ∈ f, dictLookup x dist = some d) ∧
    (∀ x ∈ b, dictLookup x dist = some (d + 1))
  monotono : ∀ a ∈ orden, ∀ c ∈ cola, ∃ da dc, dictLookup a dist = some da ∧
    dictLookup c dist = some dc ∧ da ≤ dc
  arbolSnd : inicio :: arist.map Prod.snd = dictKeys dist
  arbolPadre : ∀ u v, (u, v) ∈ arist → dictLookup v padres = some (some u)
  arbolPre : ∀ pre u v post, arist = pre ++ (u, v) :: post →
    u ∈ inicio :: pre.map Prod.snd

theorem bfsInv_init {α : Type} (g : Grafo α) (inicio : String) :
    BfsInv g inicio [inicio] (dictInsert inicio 0 []) (dictInsert inicio none [])
      [] [] := by
  refine {
    ordenCola := by simp [dictInsert, dictKeys]
    nodup := by simp [dictInsert, dictKeys]
    clavesPadres := by simp [dictInsert, dictKeys]
    inicioDist := by simp [dictInsert, dictLookup]
    inicioPadre := by simp [dictInsert, dictLookup]
    soloInicio := ?_
    paso := ?_
    antes := ?_
    cerrado := by simp
    capas := ⟨0, [inicio], [], by simp, by simp [dictInsert, dictLookup], by simp⟩
    monotono := by simp
    arbolSnd := by simp [dictInsert, dictKeys]
    arbolPadre := by simp
    arbolPre := by
      intro pre u v post h
      have h2 := congrArg List.length h
      simp at h2
      omega }
  · intro k hk
    simp [dictInsert, dictLookup] at hk
    exact hk.symm
  · intro k p hk
    simp [dictInsert, dictLookup] at hk
  · intro k p hk
    simp [dictInsert, dictLookup] at hk

theorem bfsInv_paso {α : Type} (g : Grafo α) (inicio actual : String)
    (resto : List String) (dist : Dict Nat) (padres : Dict (Option String))
    (arist : List (String × String)) (orden : List String) (da : Nat)
    (hda : dictLookup actual dist = some da)
    (hinv : BfsInv g inicio (actual :: resto) dist padres arist orden) :
    BfsInv g inicio
      (resto ++ (bfsVisita actual da (g.vecinos actual) dist padres arist).2.2.2)
      (bfsVisita actual da (g.vecinos actual) dist padres arist).1
      (bfsVisita actual da (g.vecinos actual) dist padres arist).2.1
      (bfsVisita actual da (g.vecinos actual) dist padres arist).2.2.1
      (orden ++ [actual]) := by
  have s := bfsVisita_spec actual da (g.vecinos actual) dist padres arist
    hinv.clavesPadres
  set r := bfsVisita actual da (g.vecinos actual) dist padres arist with hr
  have hactualMem : actual ∈ dictKeys dist := dictLookup_some_mem hda
  have hKeysMem : ∀ x ∈ dictKeys dist, ¬ x ∈ r.2.2.2 := by
    intro x hx hm
    have h2 := (s.nuevosProp x hm).2
    rw [mem_dictKeys] at hx
    rw [hx] at h2
    simp at h2
  have hactualNot : ¬ actual ∈ r.2.2.2 := hKeysMem actual hactualMem
  have hDistActual : dictLookup actual r.1 = some da := by
    rw [(s.sinCambio actual hactualNot).1]
    exact hda
  have hOld : ∀ k, k ∈ dictKeys dist →
      dictLookup k r.1 = dictLookup k dist ∧
      dictLookup k r.2.1 = dictLookup k padres :=
    fun k hk => s.sinCambio k (hKeysMem k hk)
  obtain ⟨d, f, b, hcola, hf, hb⟩ := hinv.capas
  have hColaVal : ∀ c ∈ actual :: resto, ∃ dc, dictLookup c dist = some dc ∧
      (dc = d ∨ dc = d + 1) := by
    intro c hc
    rw [hcola] at hc
    rcases List.mem_append.1 hc with h2 | h2
    · exact ⟨d, hf c h2, Or.inl rfl⟩
    · exact ⟨d + 1, hb c h2, Or.inr rfl⟩
  have hdaVal : da = d ∨ da = d + 1 := by
    obtain ⟨dc, hdc, hor⟩ := hColaVal actual (List.mem_cons_self _ _)
    rw [hda] at hdc
    have he := Option.some_inj.1 hdc
    rcases hor with h3 | h3
    · exact Or.inl (by omega)
    · exact Or.inr (by omega)
  have hRestoGe : ∀ c ∈ resto, ∃ dc, dictLookup c dist = some dc ∧ da ≤ dc := by
    cases f with
    | nil =>
      rw [List.nil_append] at hcola
      have hdab : da = d + 1 := by
        have h2 := hb actual (by rw [← hcola]; exact List.mem_cons_self _ _)
        rw [hda] at h2
        exact Option.some_inj.1 h2
      intro c hc
      have hcb : c ∈ b := by rw [← hcola]; exact List.mem_cons_of_mem _ hc
      exact ⟨d + 1, hb c hcb, by omega⟩
    | cons fh ft =>
      have hfh : actual = fh := by
        have h2 := congrArg List.head? hcola
        simpa using h2
      subst hfh
      have hdad : da = d := by
        have h2 := hf actual (List.mem_cons_self _ _)
        rw [hda] at h2
        exact Option.some_inj.1 h2
      intro c hc
      obtain ⟨dc, hdc, hor⟩ := hColaVal c (List.mem_cons_of_mem _ hc)
      refine ⟨dc, hdc, ?_⟩
      rcases hor with h3 | h3 <;> omega
  have hOldLe : ∀ v2 ∈ dictKeys dist, ∃ dv, dictLookup v2 dist = some dv ∧
      dv ≤ da + 1 := by
    intro v2 hv2
    rw [← hinv.ordenCola] at hv2
    rcases List.mem_append.1 hv2 with h2 | h2
    · obtain ⟨dv', da', e1, e2, hle⟩ := hinv.monotono v2 h2 actual
        (List.mem_cons_self _ _)
    
      rw [hda] at e2
      have he : da = da' := Option.some_inj.1 e2
      exact ⟨dv', e1, by omega⟩
    · obtain ⟨dc, hdc, hor⟩ := hColaVal v2 h2
      refine ⟨dc, hdc, ?_⟩
      rcases hor with h3 | h3 <;> rcases hdaVal with h4 | h4 <;> omega
  refine {
    ordenCola := by
      rw [s.clavesDist, ← hinv.ordenCola]
      simp
    nodup := by
      rw [s.clavesDist]
      exact List.nodup_append.2 ⟨hinv.nodup, s.nodupNuevos, hKeysMem⟩
    clavesPadres := by
      rw [s.clavesPadres, s.clavesDist, hinv.clavesPadres]
    inicioDist := by
      rw [(hOld inicio (dictLookup_some_mem hinv.inicioDist)).1]
      exact hinv.inicioDist
    inicioPadre := by
      rw [(hOld inicio (dictLookup_some_mem hinv.inicioDist)).2]
      exact hinv.inicioPadre
    soloInicio := ?_
    paso := ?_
    antes := ?_
    cerrado := ?_
    capas := ?_
    monotono := ?_
    arbolSnd := by
      rw [s.aristEq, s.clavesDist, ← hinv.arbolSnd]
      simp
    arbolPadre := ?_
    arbolPre := ?_ }
  · -- soloInicio
    intro k hk
    by_cases hkn : k ∈ r.2.2.2
    · rw [(s.nuevosVal k hkn).2] at hk
      simp at hk
    · rw [(s.sinCambio k hkn).2] at hk
      exact hinv.soloInicio k hk
  · -- paso
    intro k p hk
    by_cases hkn : k ∈ r.2.2.2
    · rw [(s.nuevosVal k hkn).2] at hk
      have hp : actual = p := by
        have h2 := Option.some_inj.1 hk
        exact Option.some_inj.1 h2
      subst hp
      refine ⟨da + 1, da, (s.nuevosVal k hkn).1, hDistActual, rfl, ?_⟩
      exact (s.nuevosProp k hkn).1
    · rw [(s.sinCambio k hkn).2] at hk
      obtain ⟨dk, dp, e1, e2, heq, hedge⟩ := hinv.paso k p hk
      exact ⟨dk, dp, by rw [(hOld k (dictLookup_some_mem e1)).1]; exact e1,
        by rw [(hOld p (dictLookup_some_mem e2)).1]; exact e2, heq, hedge⟩
  · -- antes
    intro k p hk
    by_cases hkn : k ∈ r.2.2.2
    · rw [(s.nuevosVal k hkn).2] at hk
      have hp : actual = p := by
        have h2 := Option.some_inj.1 hk
        exact Option.some_inj.1 h2
      subst hp
      obtain ⟨n1, n2, hsplit⟩ := List.append_of_mem hkn
      refine ⟨(orden ++ actual :: resto) ++ n1, n2, ?_, ?_, ?_⟩
      · rw [hsplit]
        simp
      · simp
      · simp
  
    · rw [(s.sinCambio k hkn).2] at hk
      obtain ⟨pre, post, heq, hp1, hp2⟩ := hinv.antes k p hk
      refine ⟨pre, post ++ r.2.2.2, ?_, hp1, List.mem_append_left _ hp2⟩
      have h3 : (orden ++ [actual]) ++ (resto ++ r.2.2.2) =
          (orden ++ actual :: resto) ++ r.2.2.2 := by simp
      rw [h3, heq]
      simp
  · -- cerrado
    intro u hu v w hvw
    rcases List.mem_append.1 hu with h2 | h2
    · obtain ⟨du, dv, e1, e2, hle⟩ := hinv.cerrado u h2 v w hvw
      exact ⟨du, dv, by rw [(hOld u (dictLookup_some_mem e1)).1]; exact e1,
        by rw [(hOld v (dictLookup_some_mem e2)).1]; exact e2, hle⟩
    · have hu2 : u = actual := by simpa using h2
      subst hu2
      obtain ⟨dv, hdv, hcase⟩ := s.cerrado v w hvw
      refine ⟨da, dv, hDistActual, hdv, ?_⟩
      rcases hcase with h3 | h3
      · exact h3
      · obtain ⟨dv2, hdv2, hle2⟩ := hOldLe v (dictLookup_some_mem h3)
        rw [h3] at hdv2
        have he : dv = dv2 := Option.some_inj.1 hdv2
        omega
  · -- capas
    cases f with
    | nil =>
      rw [List.nil_append] at hcola
      have hdab : da = d + 1 := by
        have h2 := hb actual (by rw [← hcola]; exact List.mem_cons_self _ _)
        rw [hda] at h2
        exact Option.some_inj.1 h2
      refine ⟨d + 1, resto, r.2.2.2, rfl, ?_, ?_⟩
      · intro x hx
        have hxb : x ∈ b := by rw [← hcola]; exact List.mem_cons_of_mem _ hx
        have h2 := hb x hxb
        rw [(hOld x (dictLookup_some_mem h2)).1]
        exact h2
      · intro x hx
        have h2 := (s.nuevosVal x hx).1
        rw [h2]
        rw [hdab]
    | cons fh ft =>
      have hfh : actual = fh := by
        have h2 := congrArg List.head? hcola
        simpa using h2
      subst hfh
      have hdad : da = d := by
        have h2 := hf actual (List.mem_cons_self _ _)
        rw [hda] at h2
        exact Option.some_inj.1 h2
      have hresto : resto = ft ++ b := by
        have h2 := congrArg List.tail hcola
        simpa using h2
      refine ⟨d, ft, b ++ r.2.2.2, by rw [hresto]; simp, ?_, ?_⟩
      · intro x hx
        have h2 := hf x (List.mem_cons_of_mem _ hx)
        rw [(hOld x (dictLookup_some_mem h2)).1]
        exact h2
      · intro x hx
        rcases List.mem_append.1 hx with h3 | h3
        · have h2 := hb x h3
          rw [(hOld x (dictLookup_some_mem h2)).1]
          exact h2
        · have h2 := (s.nuevosVal x h3).1
          rw [h2, hdad]
  · -- monotono
    intro a ha c hc
    rcases List.mem_append.1 ha with ha2 | ha2
    · rcases List.mem_append.1 hc with hc2 | hc2
      · obtain ⟨da0, dc0, e1, e2, hle⟩ := hinv.monotono a ha2 c
          (List.mem_cons_of_mem _ hc2)
        exact ⟨da0, dc0, by rw [(hOld a (dictLookup_some_mem e1)).1]; exact e1,
          by rw [(hOld c (dictLookup_some_mem e2)).1]; exact e2, hle⟩
      · obtain ⟨da0, da1, e1, e2, hle⟩ := hinv.monotono a ha2 actual
          (List.mem_cons_self _ _)
        rw [hda] at e2
        have he : da = da1 := Option.some_inj.1 e2
        refine ⟨da0, da + 1, by rw [(hOld a (dictLookup_some_mem e1)).1]; exact e1,
          (s.nuevosVal c hc2).1, by omega⟩
    · have ha3 : a = actual := by simpa using ha2
      subst ha3
      rcases List.mem_append.1 hc with hc2 | hc2
      · obtain ⟨dc, hdc, hle⟩ := hRestoGe c hc2
        exact ⟨da, dc, hDistActual,
          by rw [(hOld c (dictLookup_some_mem hdc)).1]; exact hdc, hle⟩
      · exact ⟨da, da + 1, hDistActual, (s.nuevosVal c hc2).1, by omega⟩
  · -- arbolPadre
    intro u v huv
    rw [s.aristEq] at huv
    rcases List.mem_append.1 huv with h2 | h2
    · have h3 := hinv.arbolPadre u v h2
      have hm : v ∈ dictKeys dist := by
        rw [← hinv.clavesPadres]
        exact dictLookup_some_mem h3
      rw [(hOld v hm).2]
      exact h3
    · obtain ⟨x, hx, hxe⟩ := List.mem_map.1 h2
      have hu : actual = u := congrArg Prod.fst hxe
      have hv : x = v := congrArg Prod.snd hxe
      subst hu
      subst hv
      exact (s.nuevosVal x hx).2
  · -- arbolPre
    intro pre u v post heq
    rw [s.aristEq] at heq
    have hmemGeneral : actual ∈ inicio :: arist.map Prod.snd := by
      rw [hinv.arbolSnd]
      exact hactualMem
    rcases List.append_eq_append_iff.1 heq with ⟨a2, hpre, hmap⟩ | ⟨c2, harist, hrest⟩
    · have huv : (u, v) ∈ r.2.2.2.map (fun x => (actual, x)) := by
        rw [hmap]
        exact List.mem_append_right _ (List.mem_cons_self _ _)
      obtain ⟨x, hx, hxe⟩ := List.mem_map.1 huv
      have hu : actual = u := congrArg Prod.fst hxe
      subst hu
      rw [hpre]
      rcases List.mem_cons.1 hmemGeneral with h3 | h3
      · exact h3 ▸ List.mem_cons_self _ _
      · refine List.mem_cons_of_mem _ ?_
        rw [List.map_append]
        exact List.mem_append_left _ h3
    · cases c2 with
      | nil =>
        simp at harist
        subst harist
        rw [List.nil_append] at hrest
        have huv : (u, v) ∈ r.2.2.2.map (fun x => (actual, x)) := by
          rw [← hrest]
          exact List.mem_cons_self _ _
        obtain ⟨x, hx, hxe⟩ := List.mem_map.1 huv
        have hu : actual = u := congrArg Prod.fst hxe
        subst hu
        rcases List.mem_cons.1 hmemGeneral with h3 | h3
        · exact h3 ▸ List.mem_cons_self _ _
        · exact List.mem_cons_of_mem _ h3
      | cons c0 ct =>
        have hc0 : c0 = (u, v) := by
          have h2 := congrArg List.head? hrest
          simpa using h2.symm
        subst hc0
        have hct : arist = pre ++ (u, v) :: ct := by
          rw [harist]
        exact hinv.arbolPre pre u v ct hct

theorem bfsLoop_nil {α : Type} (g : Grafo α) (dist : Dict Nat)
    (padres : Dict (Option String)) (arist : List (String × String))
    (orden : List String) :
    bfsLoop g [] dist padres arist orden =
      { dist := dist, padres := padres, arist := arist, orden := orden } := by
  rw [bfsLoop]

theorem bfsLoop_cons {α : Type} (g : Grafo α) (actual : String)
    (resto : List String) (dist : Dict Nat) (padres : Dict (Option String))
    (arist : List (String × String)) (orden : List String) :
    bfsLoop g (actual :: resto) dist padres arist orden =
      bfsLoop g
        (resto ++ (bfsVisita actual ((dictLookup actual dist).getD 0)
          (g.vecinos actual) dist padres arist).2.2.2)
        (bfsVisita actual ((dictLookup actual dist).getD 0)
          (g.vecinos actual) dist padres arist).1
        (bfsVisita actual ((dictLookup actual dist).getD 0)
          (g.vecinos actual) dist padres arist).2.1
        (bfsVisita actual ((dictLookup actual dist).getD 0)
          (g.vecinos actual) dist padres arist).2.2.1
        (orden ++ [actual]) := by
  rw [bfsLoop]

theorem bfsLoop_spec {α : Type} (g : Grafo α) (inicio : String) :
    ∀ (n : Nat) (cola : List String) (dist : Dict Nat)
      (padres : Dict (Option String)) (arist : List (String × String))
      (orden : List String),
      2 * faltantes (nombresVecinos g) dist + cola.length ≤ n →
      BfsInv g inicio cola dist padres arist orden →
      BfsInv g inicio [] (bfsLoop g cola dist padres arist orden).dist
        (bfsLoop g cola dist padres arist orden).padres
        (bfsLoop g cola dist padres arist orden).arist
        (bfsLoop g cola dist padres arist orden).orden := by
  intro n
  induction n with
  | zero =>
    intro cola dist padres arist orden hn hinv
    cases cola with
    | nil =>
      rw [bfsLoop_nil]
      exact hinv
    | cons a r2 => simp at hn
  | succ n ih =>
    intro cola dist padres arist orden hn hinv
    cases cola with
    | nil =>
      rw [bfsLoop_nil]
      exact hinv
    | cons actual resto =>
      have hmem : actual ∈ dictKeys dist := by
        rw [← hinv.ordenCola]
        exact List.mem_append_right _ (List.mem_cons_self _ _)
      obtain ⟨da, hda⟩ := dictContains_lookup ((mem_dictKeys _ _).1 hmem)
      have hstep := bfsInv_paso g inicio actual resto dist padres arist orden da
        hda hinv
      have hsub : ∀ p ∈ g.vecinos actual, p.1 ∈ nombresVecinos g := by
        intro p hp
        exact vecinos_mem_nombres g actual p.1 p.2 (by simpa using hp)
      have hle := bfsVisita_faltantes actual da (nombresVecinos g)
        (g.vecinos actual) dist padres arist hsub
      have hgetd : (dictLookup actual dist).getD 0 = da := by rw [hda]; rfl
      rw [bfsLoop_cons, hgetd]
      apply ih
      · simp only [List.length_append, List.length_cons] at hn ⊢
        omega
      · exact hstep

theorem bfsInv_final {α : Type} (g : Grafo α) (inicio : String) :
    BfsInv g inicio [] (bfsSalidaDe g inicio).dist (bfsSalidaDe g inicio).padres
      (bfsSalidaDe g inicio).arist (bfsSalidaDe g inicio).orden := by
  unfold bfsSalidaDe
  exact bfsLoop_spec g inicio _ _ _ _ _ _ (Nat.le_refl _) (bfsInv_init g inicio)

theorem bfsInv_invPadres {α : Type} {g : Grafo α} {inicio : String}
    {dist : Dict Nat} {padres : Dict (Option String)}
    {arist : List (String × String)} {orden : List String}
    (hinv : BfsInv g inicio [] dist padres arist orden) :
    InvPadres padres dist inicio := by
  refine { claves := hinv.clavesPadres
           inicioPadre := hinv.inicioPadre
           inicioProf := hinv.inicioDist
           soloInicio := hinv.soloInicio
           paso := ?_ }
  intro k p hk
  obtain ⟨dk, dp, e1, e2, heq, _⟩ := hinv.paso k p hk
  exact ⟨dk, dp, e1, e2, heq⟩

theorem bfs_sound {α : Type} {g : Grafo α} {inicio : String} {dist : Dict Nat}
    {padres : Dict (Option String)} {arist : List (String × String)}
    {orden : List String} (hinv : BfsInv g inicio [] dist padres arist orden) :
    ∀ (dk : Nat) (k : String), dictLookup k dist = some dk →
      Camino g inicio k dk := by
  intro dk
  induction dk using Nat.strong_induction_on with
  | _ dk ih =>
    intro k hk
    have hkp : k ∈ dictKeys padres := by
      rw [hinv.clavesPadres]
      exact dictLookup_some_mem hk
    obtain ⟨x, hx⟩ := dictContains_lookup ((mem_dictKeys _ _).1 hkp)
    cases x with
    | none =>
      have hki : k = inicio := hinv.soloInicio k hx
      subst hki
      have h0 : dk = 0 := by
        have h2 := hinv.inicioDist
        rw [hk] at h2
        exact Option.some_inj.1 h2
      subst h0
      exact Camino.refl
    | some p =>
      obtain ⟨dk2, dp, e1, e2, heq, w, hw⟩ := hinv.paso k p hx
      rw [hk] at e1
      have he : dk = dk2 := Option.some_inj.1 e1
      subst he
      subst heq
      exact Camino.paso (ih dp (Nat.lt_succ_self dp) p e2) hw

theorem bfs_optimal {α : Type} {g : Grafo α} {inicio : String} {dist : Dict Nat}
    {padres : Dict (Option String)} {arist : List (String × String)}
    {orden : List String} (hinv : BfsInv g inicio [] dist padres arist orden) :
    ∀ (k : String) (n : Nat), Camino g inicio k n →
      ∃ dk, dictLookup k dist = some dk ∧ dk ≤ n := by
  intro k n hcam
  induction hcam with
  | refl => exact ⟨0, hinv.inicioDist, Nat.le_refl 0⟩
  | @paso u v n2 w h1 h2 ih =>
    obtain ⟨du, hdu, hle⟩ := ih
    have horden : u ∈ orden := by
      have hm : u ∈ dictKeys dist := dictLookup_some_mem hdu
      rw [← hinv.ordenCola] at hm
      simpa using hm
    obtain ⟨du2, dv, e1, e2, hle2⟩ := hinv.cerrado u horden v w h2
    rw [hdu] at e1
    have he : du = du2 := Option.some_inj.1 e1
    exact ⟨dv, e2, by omega⟩

theorem bfs_eq_ok {α : Type} (g : Grafo α) (inicio : String) (goal : Option String)
    (h : dictContains inicio g.nodosD = true) (ruta : Option (List String))
    (hruta : ((match goal with
      | none => Except.ok none
      | some go => Grafo.reconstruir (bfsSalidaDe g inicio).padres inicio go) :
      Except PyErr (Option (List String))) = Except.ok ruta) :
    Grafo.bfs g inicio goal = Except.ok {
      distances := (bfsSalidaDe g inicio).dist
      parents := (bfsSalidaDe g inicio).padres
      path := ruta
      tree := Grafo.construirArbol inicio (bfsSalidaDe g inicio).arist
      order := (bfsSalidaDe g inicio).orden } := by
  simp only [Grafo.bfs, h, if_true, hruta]

/-- Claim C1: for a known start node, BFS returns a `distances` dict whose
keys are exactly the nodes reachable from the start (absent otherwise),
with `distances[start] = 0` and each present distance equal to the true
minimum hop count; nodes are marked visited when first enqueued, so the
dequeue order `order` repeats no node. -/
theorem c1_bfs_distancias_minimas {α : Type} (g : Grafo α) (inicio : String)
    (goal : Option String) (h : dictContains inicio g.nodosD = true) :
    ∃ r : BfsRes α, Grafo.bfs g inicio goal = Except.ok r ∧
      dictLookup inicio r.distances = some 0 ∧
      (∀ v, dictContains v r.distances = true ↔ ∃ n, Camino g inicio v n) ∧
      (∀ v d, dictLookup v r.distances = some d →
        Camino g inicio v d ∧ ∀ n, Camino g inicio v n → d ≤ n) ∧
      r.order.Nodup := by
  have hinv := bfsInv_final g inicio
  have hip := bfsInv_invPadres hinv
  obtain ⟨ruta, hruta⟩ : ∃ ruta, ((match goal with
      | none => Except.ok none
      | some go => Grafo.reconstruir (bfsSalidaDe g inicio).padres inicio go) :
      Except PyErr (Option (List String))) = Except.ok ruta := by
    cases goal with
    | none => exact ⟨none, rfl⟩
    | some go => exact reconstruir_invPadres_ok hip go
  refine ⟨_, bfs_eq_ok g inicio goal h ruta hruta, hinv.inicioDist, ?_, ?_, ?_⟩
  · intro v
    constructor
    · intro hv
      obtain ⟨dk, hdk⟩ := dictContains_lookup hv
      exact ⟨dk, bfs_sound hinv dk v hdk⟩
    · intro hv
      obtain ⟨n, hn⟩ := hv
      obtain ⟨dk, hdk, _⟩ := bfs_optimal hinv v n hn
      rw [dictContains, hdk]
      rfl
  · intro v d hd
    refine ⟨bfs_sound hinv d v hd, ?_⟩
    intro n hn
    obtain ⟨dk, hdk, hle⟩ := bfs_optimal hinv v n hn
    rw [hd] at hdk
    have he : d = dk := Option.some_inj.1 hdk
    omega
  · have horden : (bfsSalidaDe g inicio).orden =
        dictKeys (bfsSalidaDe g inicio).dist := by
      have h2 := hinv.ordenCola
      simpa using h2
    show (bfsSalidaDe g inicio).orden.Nodup
    rw [horden]
    exact hinv.nodup

/-! ## Claims C3 and C4 -/

/-- Claim C3: an unknown start key makes both `bfs` and `dfs` raise
`ValueError` synchronously, before any traversal work; in this pure
embedding the traversals return no modified graph at all, so the graph
itself is untouched by construction. -/
theorem c3_inicio_desconocido {α : Type} (g : Grafo α) (k : String)
    (goal : Option String) (h : dictContains k g.nodosD = false) :
    Grafo.bfs g k goal =
      Except.error (PyErr.valueError "start no existe en el grafo.") ∧
    Grafo.dfs g k goal =
      Except.error (PyErr.valueError "start no existe en el grafo.") := by
  constructor
  · simp [Grafo.bfs, h]
  · simp [Grafo.dfs, h]

/-- Claim C4 is false as stated: `_reconstruir_camino` can throw.  On
`parents = {"b": "a"}`, start `"a"`, end `"b"`, the walk appends `"b"`,
then looks up `parents["a"]`, which raises `KeyError` in Python. -/
theorem c4_contraejemplo :
    Grafo.reconstruir [("b", some "a")] "a" "b" =
      Except.error (PyErr.keyError "a") := by
  rfl

/-- Claim C4 (amended): for parent maps whose chains stay within the dict
and never revisit a node — certified by a rank strictly decreasing from
child to parent, as in every BFS/DFS-produced map — `reconstruir` never
throws, returns "no path" when `fin` is absent or the backward walk ends
at a node other than `inicio`, and otherwise returns the walked sequence
reversed. -/
theorem c4_reconstruir_total {padres : Dict (Option String)}
    (inicio fin : String) (h : BuenosPadres padres) :
    ∃ res, Grafo.reconstruir padres inicio fin = Except.ok res ∧
      (dictContains fin padres = false → res = none) ∧
      (∀ camino, caminaAtras padres (dictLen padres + 1) fin = Except.ok camino →
        (¬ camino.getLast? = some inicio → res = none) ∧
        (camino.getLast? = some inicio → res = some camino.reverse)) := by
  by_cases hc : dictContains fin padres
  · obtain ⟨rango, hkeys, hdec⟩ := h
    have hfm : fin ∈ dictKeys rango := by
      rw [hkeys]
      exact (mem_dictKeys fin padres).2 hc
    obtain ⟨rk, hrk⟩ := dictContains_lookup ((mem_dictKeys fin rango).1 hfm)
    obtain ⟨c, hHead, hNodup, hBound, hRun⟩ :=
      caminaAtras_buenos hkeys hdec rk fin hrk
    have hsub : ∀ x ∈ c, x ∈ dictKeys padres := by
      intro x hx
      obtain ⟨rx, hrx, _⟩ := hBound x hx
      rw [← hkeys]
      exact dictLookup_some_mem hrx
    have hclen : c.length ≤ dictLen padres := by
      have h2 := nodup_subset_length hNodup hsub
      rw [dictKeys_length] at h2
      exact h2
    have hrun := hRun (dictLen padres + 1) (by omega)
    have hcamino : ∀ camino,
        caminaAtras padres (dictLen padres + 1) fin = Except.ok camino →
        camino = c := by
      intro camino hcam
      rw [hrun] at hcam
      exact (Except.ok.inj hcam).symm
    by_cases hlast : c.getLast? = some inicio
    · refine ⟨some c.reverse, ?_, ?_, ?_⟩
      · unfold Grafo.reconstruir
        rw [if_pos hc, hrun]
        simp [List.head?_reverse, hlast]
      · intro h2
        rw [hc] at h2
        simp at h2
      · intro camino hcam
        have he := hcamino camino hcam
        subst he
        exact ⟨fun h2 => absurd hlast h2, fun _ => rfl⟩
    · refine ⟨none, ?_, fun _ => rfl, ?_⟩
      · unfold Grafo.reconstruir
        rw [if_pos hc, hrun]
        simp [List.head?_reverse, hlast]
      · intro camino hcam
        have he := hcamino camino hcam
        subst he
        exact ⟨fun _ => rfl, fun h2 => absurd h2 hlast⟩
  · have hc2 : dictContains fin padres = false := by simpa using hc
    refine ⟨none, reconstruir_none hc2, fun _ => rfl, ?_⟩
    intro camino hcam
    have hnone : dictLookup fin padres = none := by
      rw [dictContains] at hc2
      exact Option.not_isSome_iff_eq_none.1 (by simp [hc2])
    rw [show caminaAtras padres (dictLen padres + 1) fin =
        Except.error (PyErr.keyError fin) by simp [caminaAtras, hnone]] at hcam
    cases hcam

/-! ## Claim C2: exit resolution -/

/-- Python's `min(lista, key=f)` as the fold used in `run_bfs_campus`:
the result is a member attaining the minimum of `f`, and it is the first
such member (every element strictly before it has a strictly larger
value). -/
theorem primerMin_spec (f : String → Nat) :
    ∀ (resto : List String) (s0 : String),
      (resto.foldl (fun best s => if f s < f best then s else best) s0) ∈
          s0 :: resto ∧
      (∀ t ∈ s0 :: resto,
        f (resto.foldl (fun best s => if f s < f best then s else best) s0) ≤
          f t) ∧
      ∃ pre post, s0 :: resto =
          pre ++ (resto.foldl (fun best s => if f s < f best then s else best) s0)
            :: post ∧
        ∀ t ∈ pre,
          f (resto.foldl (fun best s => if f s < f best then s else best) s0) <
            f t := by
  intro resto
  induction resto with
  | nil =>
    intro s0
    refine ⟨List.mem_cons_self _ _, ?_, [], [], rfl, by simp⟩
    intro t ht
    simp at ht
    subst ht
    exact Nat.le_refl _
  | cons s1 rest ih =>
    intro s0
    by_cases hcmp : f s1 < f s0
    · obtain ⟨hmem, hmin, pre', post', hsplit, hstrict⟩ := ih s1
      rw [List.foldl_cons, if_pos hcmp]
      refine ⟨?_, ?_, ?_⟩
      · rcases List.mem_cons.1 hmem with h2 | h2
        · rw [h2]
          exact List.mem_cons_of_mem _ (List.mem_cons_self _ _)
        · exact List.mem_cons_of_mem _ (List.mem_cons_of_mem _ h2)
      · intro t ht
        rcases List.mem_cons.1 ht with h2 | h2
        · subst h2
          have h3 := hmin s1 (List.mem_cons_self _ _)
          omega
        · exact hmin t h2
      · cases pre' with
        | nil =>
          have hm : rest.foldl (fun best s => if f s < f best then s else best) s1 =
              s1 := by
            have h2 := congrArg List.head? hsplit
            simpa using h2.symm
          refine ⟨[s0], rest, by rw [hm]; simp, ?_⟩
          intro t ht
          simp at ht
          subst ht
          rw [hm]
          exact hcmp
        | cons p0 pt =>
          have hp0 : s1 = p0 := by
            have h2 := congrArg List.head? hsplit
            simpa using h2
          have hrest : rest = pt ++
              (rest.foldl (fun best s => if f s < f best then s else best) s1)
                :: post' := by
            have h2 := congrArg List.tail hsplit
            simpa using h2
          refine ⟨s0 :: s1 :: pt, post',
            by rw [List.cons_append, List.cons_append, ← hrest], ?_⟩
          intro t ht
          rcases List.mem_cons.1 ht with h2 | h2
          · subst h2
            have h3 := hstrict s1 (by rw [hp0]; exact List.mem_cons_self _ _)
            omega
          · rw [hp0] at h2
            exact hstrict t h2
    · obtain ⟨hmem, hmin, pre', post', hsplit, hstrict⟩ := ih s0
      rw [List.foldl_cons, if_neg hcmp]
      refine ⟨?_, ?_, ?_⟩
      · rcases List.mem_cons.1 hmem with h2 | h2
        · rw [h2]
          exact List.mem_cons_self _ _
        · exact List.mem_cons_of_mem _ (List.mem_cons_of_mem _ h2)
      · intro t ht
        rcases List.mem_cons.1 ht with h2 | h2
        · subst h2
          exact hmin t (List.mem_cons_self _ _)
        · rcases List.mem_cons.1 h2 with h3 | h3
          · subst h3
            have h4 := hmin s0 (List.mem_cons_self _ _)
            omega
          · exact hmin t (List.mem_cons_of_mem _ h3)
      · cases pre' with
        | nil =>
          have hm : rest.foldl (fun best s => if f s < f best then s else best) s0 =
              s0 := by
            have h2 := congrArg List.head? hsplit
            simpa using h2.symm
          exact ⟨[], s1 :: rest, by rw [hm]; simp, by simp⟩
        | cons p0 pt =>
          have hp0 : s0 = p0 := by
            have h2 := congrArg List.head? hsplit
            simpa using h2
          have hrest : rest = pt ++
              (rest.foldl (fun best s => if f s < f best then s else best) s0)
                :: post' := by
            have h2 := congrArg List.tail hsplit
            simpa using h2
          refine ⟨s0 :: s1 :: pt, post',
            by rw [List.cons_append, List.cons_append, ← hrest], ?_⟩
          intro t ht
          rcases List.mem_cons.1 ht with h2 | h2
          · subst h2
            refine hstrict t ?_
            rw [hp0]
            exact List.mem_cons_self _ _
          · rcases List.mem_cons.1 h2 with h3 | h3
            · subst h3
              have h4 := hstrict s0 (by rw [hp0]; exact List.mem_cons_self _ _)
              omega
            · refine hstrict t ?_
              rw [← hp0]
              exact List.mem_cons_of_mem _ h3

theorem buscarSalida_eq {α : Type} (g : Grafo α) (dist : Dict Nat)
    (prefijo : String) :
    g.buscarSalidaBfs dist prefijo =
      match (g.nodos_salida prefijo).filter (fun s2 => dictContains s2 dist) with
      | [] => none
      | s0 :: resto => some (resto.foldl (fun best s2 =>
          if (dictLookup s2 dist).getD 0 < (dictLookup best dist).getD 0
          then s2 else best) s0) := rfl

/-- Claim C2: exit resolution restricts the prefix-matching leaves (degree
exactly 1, name starting with the prefix) to keys of `distances`; an empty
restriction yields the non-fatal "no reachable exit" outcome (`none`), and
otherwise the selected exit is a reachable prefix-leaf of minimal distance,
the first such in leaf-iteration order. -/
theorem c2_resolucion_salida {α : Type} (g : Grafo α) (dist : Dict Nat)
    (prefijo : String) :
    (g.buscarSalidaBfs dist prefijo = none ↔
      (g.nodos_salida prefijo).filter (fun s2 => dictContains s2 dist) = []) ∧
    ∀ s, g.buscarSalidaBfs dist prefijo = some s →
      s ∈ (g.nodos_salida prefijo).filter (fun s2 => dictContains s2 dist) ∧
      g.grado s = 1 ∧ s.startsWith prefijo = true ∧
      dictContains s dist = true ∧
      (∀ t ∈ (g.nodos_salida prefijo).filter (fun s2 => dictContains s2 dist),
        (dictLookup s dist).getD 0 ≤ (dictLookup t dist).getD 0) ∧
      ∃ pre post,
        (g.nodos_salida prefijo).filter (fun s2 => dictContains s2 dist) =
          pre ++ s :: post ∧
        ∀ t ∈ pre, (dictLookup s dist).getD 0 < (dictLookup t dist).getD 0 := by
  rw [buscarSalida_eq]
  cases hreach : (g.nodos_salida prefijo).filter (fun s2 => dictContains s2 dist) with
  | nil =>
    refine ⟨by simp, ?_⟩
    intro s hs
    simp at hs
  | cons s0 resto =>
    refine ⟨by simp, ?_⟩
    intro s hs
    simp only [Option.some_inj] at hs
    obtain ⟨hmem, hmin, pre, post, hsplit, hstrict⟩ :=
      primerMin_spec (fun x => (dictLookup x dist).getD 0) resto s0
    rw [hs] at hmem hmin hsplit hstrict
    have hsr : s ∈ (g.nodos_salida prefijo).filter
        (fun s2 => dictContains s2 dist) := by
      rw [hreach]
      exact hmem
    have hsal : s ∈ g.nodos_salida prefijo ∧ dictContains s dist = true := by
      have h2 := List.mem_filter.1 hsr
      exact ⟨h2.1, h2.2⟩
    have hhoja : s ∈ g.nodos_hoja ∧ s.startsWith prefijo = true := by
      have h2 := List.mem_filter.1 hsal.1
      exact ⟨h2.1, h2.2⟩
    have hgrado : g.grado s = 1 := by
      have h2 := List.mem_filter.1 hhoja.1
      have h3 := h2.2
      simpa using h3
    exact ⟨hmem, hgrado, hhoja.2, hsal.2, hmin, pre, post, hsplit, hstrict⟩

/-! ## Claim C9: edge-list loader -/

/-- Claim C9: the loader skips blank and `#` lines (after stripping), fails
on a line with fewer than two fields and on a non-numeric third field
(each time carrying the offending stripped line), defaults a missing third
field to weight 1, reports a missing file as a failure distinct from a
malformed line (different constructor, carrying the path), and propagates
every line failure to the caller wrapped with the path context. -/
theorem c9_cargador {α : Type} (aFloat : String → Option Rat)
    (ruta separador : String) (dirigido : Bool) (lineas : List String)
    (g : Grafo α) (linea : String) (resto : List String) :
    (Grafo.desdeArchivo aFloat none ruta dirigido separador =
      (Except.error (LoadError.noEncontrado ruta) : Except LoadError (Grafo α))) ∧
    (∀ e : LineaError, LoadError.noEncontrado ruta ≠ LoadError.alLeer ruta e) ∧
    ((linea.trim = "" || (linea.trim).startsWith "#") = true →
      cargarLineas aFloat separador g (linea :: resto) =
        cargarLineas aFloat separador g resto) ∧
    ((linea.trim = "" || (linea.trim).startsWith "#") = false →
      ((linea.trim.splitOn separador).length < 2 →
        cargarLineas aFloat separador g (linea :: resto) =
          Except.error (LineaError.lineaInvalida linea.trim)) ∧
      (¬ (linea.trim.splitOn separador).length < 2 →
        ((linea.trim.splitOn separador).length ≥ 3 →
          (aFloat ((linea.trim.splitOn separador).getD 2 "") = none →
            cargarLineas aFloat separador g (linea :: resto) =
              Except.error (LineaError.pesoInvalido linea.trim)) ∧
          (∀ q, aFloat ((linea.trim.splitOn separador).getD 2 "") = some q →
            cargarLineas aFloat separador g (linea :: resto) =
              cargarLineas aFloat separador
                (g.add_arista ((linea.trim.splitOn separador).getD 0 "").trim
                  ((linea.trim.splitOn separador).getD 1 "").trim q) resto)) ∧
        (¬ (linea.trim.splitOn separador).length ≥ 3 →
          cargarLineas aFloat separador g (linea :: resto) =
            cargarLineas aFloat separador
              (g.add_arista ((linea.trim.splitOn separador).getD 0 "").trim
                ((linea.trim.splitOn separador).getD 1 "").trim 1) resto))) ∧
    (∀ e, cargarLineas aFloat separador (Grafo.nuevo dirigido : Grafo α) lineas =
        Except.error e →
      (Grafo.desdeArchivo aFloat (some lineas) ruta dirigido separador :
        Except LoadError (Grafo α)) =
        Except.error (LoadError.alLeer ruta e)) := by
  refine ⟨rfl, fun e h => LoadError.noConfusion h, ?_, ?_, ?_⟩
  · intro hskip
    simp [cargarLineas, hskip]
  · intro hskip
    refine ⟨?_, ?_⟩
    · intro hlen
      simp [cargarLineas, hskip, hlen]
    · intro hlen
      refine ⟨?_, ?_⟩
      · intro h3
        refine ⟨?_, ?_⟩
        · intro hno
          have hno2 : aFloat ((linea.trim.splitOn separador)[2]?.getD "") = none := by
            simpa [List.getD] using hno
          simp [cargarLineas, hskip, hlen, h3, hno2]
        · intro q hq
          have hq2 : aFloat ((linea.trim.splitOn separador)[2]?.getD "") = some q := by
            simpa [List.getD] using hq
          simp [cargarLineas, hskip, hlen, h3, hq2, List.getD]
      · intro h3
        simp [cargarLineas, hskip, hlen, h3, List.getD]
  · intro e he
    simp [Grafo.desdeArchivo, he]

/-! ## Claim C7: idempotent node insertion -/

theorem add_nodo_existente {α : Type} (g2 : Grafo α) (k : String) (d : Option α)
    (n : Nodo α) (h : dictLookup k g2.nodosD = some n) :
    g2.add_nodo k d = (g2, n) := by
  unfold Grafo.add_nodo
  rw [h]

theorem add_nodo_lookup {α : Type} (g : Grafo α) (k : String) (d : Option α) :
    dictLookup k (g.add_nodo k d).1.nodosD = some (g.add_nodo k d).2 := by
  unfold Grafo.add_nodo
  cases hl : dictLookup k g.nodosD with
  | some n => simp [hl]
  | none => simp [hl, dictLookup_insert]

/-- Claim C7: `add_nodo` is idempotent — a second call with the same key
changes nothing and returns the node stored by the first call; on a fresh
key the stored payload stays `d1` (never reset to `d2`), exactly one entry
for the key exists, and re-adding an existing key is a no-op on the whole
graph (node dict and adjacency included). -/
theorem c7_add_nodo_idempotente {α : Type} (g : Grafo α) (k : String)
    (d1 d2 : Option α) (hg : (dictKeys g.nodosD).Nodup) :
    (g.add_nodo k d1).1.add_nodo k d2 = g.add_nodo k d1 ∧
    (dictKeys (g.add_nodo k d1).1.nodosD).count k = 1 ∧
    (dictContains k g.nodosD = false →
      dictLookup k (g.add_nodo k d1).1.nodosD = some { id := k, data := d1 }) ∧
    (dictContains k g.nodosD = true → (g.add_nodo k d1).1 = g) := by
  have hl := add_nodo_lookup g k d1
  refine ⟨?_, ?_, ?_, ?_⟩
  · rw [add_nodo_existente (g.add_nodo k d1).1 k d2 (g.add_nodo k d1).2 hl]
  · have hkeys : dictKeys (g.add_nodo k d1).1.nodosD =
        if dictContains k g.nodosD then dictKeys g.nodosD
        else dictKeys g.nodosD ++ [k] := by
      unfold Grafo.add_nodo
      cases hl2 : dictLookup k g.nodosD with
      | some n => simp [dictContains, hl2]
      | none =>
        simp only [dictContains, hl2, Option.isSome_none]
        rw [dictKeys_insert]
        simp [dictContains, hl2]
    rw [hkeys]
    by_cases hc : dictContains k g.nodosD
    · rw [if_pos hc]
      exact List.count_eq_one_of_mem hg ((mem_dictKeys k _).2 hc)
    · rw [if_neg hc]
      have hk : ¬ k ∈ dictKeys g.nodosD := by
        rw [mem_dictKeys]
        simp [hc]
      rw [List.count_append, List.count_eq_zero.mpr hk]
      simp
  · intro hc
    have hl2 : dictLookup k g.nodosD = none := by
      rw [dictContains] at hc
      exact Option.not_isSome_iff_eq_none.1 (by simp [hc])
    unfold Grafo.add_nodo
    rw [hl2]
    simp [dictLookup_insert]
  · intro hc
    obtain ⟨n, hn⟩ := dictContains_lookup hc
    rw [add_nodo_existente g k d1 n hn]

/-! ## Claim C6: undirected symmetry -/

/-- Adjacency symmetry: `neighbors(u)` has an entry for `v` iff
`neighbors(v)` has one for `u`. -/
def Simetrico {α : Type} (g : Grafo α) : Prop :=
  ∀ u v, (∃ w, (v, w) ∈ g.vecinos u) ↔ (∃ w2, (u, w2) ∈ g.vecinos v)

/-- Total number of adjacency entries of the graph. -/
def sumaAdy {α : Type} (g : Grafo α) : Nat :=
  (g.adyacenciaD.map (fun pr => pr.2.length)).sum

theorem dictInsert_fresh_append {β : Type} (k : String) (v : β) :
    ∀ d : Dict β, dictContains k d = false → dictInsert k v d = d ++ [(k, v)] := by
  intro d
  induction d with
  | nil => intro _; rfl
  | cons pr r ih =>
    obtain ⟨k2, v2⟩ := pr
    intro h
    rw [dictContains_cons] at h
    by_cases h2 : k2 = k
    · rw [if_pos h2] at h
      cases h
    · rw [if_neg h2] at h
      rw [show dictInsert k v ((k2, v2) :: r) = (k2, v2) :: dictInsert k v r by
        simp [dictInsert, h2]]
      rw [ih h]
      rfl

theorem sumaLargos_ajusta {β : Type} (k : String) (x : β) :
    ∀ d : Dict (List β), dictContains k d = true →
      ((dictAjusta k (fun l => l ++ [x]) d).map (fun pr => pr.2.length)).sum =
        (d.map (fun pr => pr.2.length)).sum + 1 := by
  intro d
  induction d with
  | nil => intro h; simp [dictContains, dictLookup] at h
  | cons pr r ih =>
    obtain ⟨k2, l⟩ := pr
    intro h
    by_cases h2 : k2 = k
    · simp [dictAjusta, h2]
      omega
    · rw [show dictAjusta k (fun l2 => l2 ++ [x]) ((k2, l) :: r) =
          (k2, l) :: dictAjusta k (fun l2 => l2 ++ [x]) r by simp [dictAjusta, h2]]
      rw [dictContains_cons, if_neg h2] at h
      simp only [List.map_cons, List.sum_cons, ih h]
      omega

theorem add_nodo_dirigido {α : Type} (g : Grafo α) (k : String) (d : Option α) :
    (g.add_nodo k d).1.dirigido = g.dirigido := by
  unfold Grafo.add_nodo
  cases hl : dictLookup k g.nodosD with
  | some n => rfl
  | none => rfl

theorem add_nodo_aristas {α : Type} (g : Grafo α) (k : String) (d : Option α) :
    (g.add_nodo k d).1.aristasL = g.aristasL := by
  unfold Grafo.add_nodo
  cases hl : dictLookup k g.nodosD with
  | some n => rfl
  | none => rfl

theorem add_nodo_sync {α : Type} (g : Grafo α) (k : String) (d : Option α)
    (hs : dictKeys g.nodosD = dictKeys g.adyacenciaD) :
    dictKeys (g.add_nodo k d).1.nodosD = dictKeys (g.add_nodo k d).1.adyacenciaD := by
  unfold Grafo.add_nodo
  cases hl : dictLookup k g.nodosD with
  | some n => simpa using hs
  | none =>
    simp only
    have hnc : dictContains k g.nodosD = false := by simp [dictContains, hl]
    have hac : dictContains k g.adyacenciaD = false := by
      cases h2 : dictContains k g.adyacenciaD
      · rfl
      · have h3 := (mem_dictKeys k _).2 h2
        rw [← hs, mem_dictKeys, hnc] at h3
        cases h3
    rw [dictKeys_insert_fresh _ hnc, dictKeys_insert_fresh _ hac, hs]

theorem add_nodo_contains_nodo {α : Type} (g : Grafo α) (k : String) (d : Option α) :
    dictContains k (g.add_nodo k d).1.nodosD = true := by
  rw [dictContains, add_nodo_lookup]
  rfl

theorem add_nodo_contains_mono {α : Type} (g : Grafo α) (k : String) (d : Option α)
    (x : String) (h : dictContains x g.nodosD = true) :
    dictContains x (g.add_nodo k d).1.nodosD = true := by
  unfold Grafo.add_nodo
  cases hl : dictLookup k g.nodosD with
  | some n => simpa using h
  | none =>
    simp only
    rw [dictContains_insert, h]
    simp

theorem add_nodo_vecinos {α : Type} (g : Grafo α) (k : String) (d : Option α)
    (hs : dictKeys g.nodosD = dictKeys g.adyacenciaD) (u : String) :
    (g.add_nodo k d).1.vecinos u = g.vecinos u := by
  unfold Grafo.add_nodo Grafo.vecinos
  cases hl : dictLookup k g.nodosD with
  | some n => rfl
  | none =>
    simp only
    rw [dictLookup_insert]
    by_cases h : k = u
    · subst h
      rw [if_pos rfl]
      have hnone : dictLookup k g.adyacenciaD = none := by
        rw [dictLookup_isNone, ← hs, mem_dictKeys]
        simp [dictContains, hl]
      rw [hnone]
      rfl
    · rw [if_neg h]

theorem add_nodo_sumaAdy {α : Type} (g : Grafo α) (k : String) (d : Option α)
    (hs : dictKeys g.nodosD = dictKeys g.adyacenciaD) :
    sumaAdy (g.add_nodo k d).1 = sumaAdy g := by
  unfold Grafo.add_nodo sumaAdy
  cases hl : dictLookup k g.nodosD with
  | some n => rfl
  | none =>
    simp only
    have hac : dictContains k g.adyacenciaD = false := by
      cases h2 : dictContains k g.adyacenciaD
      · rfl
      · have h3 := (mem_dictKeys k _).2 h2
        rw [← hs, mem_dictKeys] at h3
        rw [show dictContains k g.nodosD = false by simp [dictContains, hl]] at h3
        cases h3
    rw [dictInsert_fresh_append k [] g.adyacenciaD hac]
    simp

theorem dictContains_ajusta {β : Type} (k k2 : String) (f : β → β) (d : Dict β) :
    dictContains k2 (dictAjusta k f d) = dictContains k2 d := by
  rw [dictContains, dictContains, dictLookup_ajusta]
  by_cases h : k = k2 <;> simp [h]

theorem add_arista_caract {α : Type} (g : Grafo α) (a b : String) (p : Rat)
    (ho : g.dirigido = false)
    (hs : dictKeys g.nodosD = dictKeys g.adyacenciaD) :
    (g.add_arista a b p).dirigido = false ∧
    dictKeys (g.add_arista a b p).nodosD =
      dictKeys (g.add_arista a b p).adyacenciaD ∧
    (g.add_arista a b p).aristasL.length = g.aristasL.length + 2 ∧
    sumaAdy (g.add_arista a b p) = sumaAdy g + 2 ∧
    ∀ u, (g.add_arista a b p).vecinos u =
      g.vecinos u ++ (if a = u then [(b, p)] else []) ++
        (if b = u then [(a, p)] else []) := by
  have hs1 := add_nodo_sync g a none hs
  have hs2 := add_nodo_sync (g.add_nodo a none).1 b none hs1
  have hd2 : ((g.add_nodo a none).1.add_nodo b none).1.dirigido = false := by
    rw [add_nodo_dirigido, add_nodo_dirigido, ho]
  have hv2 : ∀ u, ((g.add_nodo a none).1.add_nodo b none).1.vecinos u =
      g.vecinos u := by
    intro u
    rw [add_nodo_vecinos _ b none hs1, add_nodo_vecinos g a none hs]
  have har : ((g.add_nodo a none).1.add_nodo b none).1.aristasL = g.aristasL := by
    rw [add_nodo_aristas, add_nodo_aristas]
  have hsum : sumaAdy ((g.add_nodo a none).1.add_nodo b none).1 = sumaAdy g := by
    rw [add_nodo_sumaAdy _ b none hs1, add_nodo_sumaAdy g a none hs]
  have hca : dictContains a ((g.add_nodo a none).1.add_nodo b none).1.adyacenciaD =
      true := by
    have h2 := add_nodo_contains_mono (g.add_nodo a none).1 b none a
      (add_nodo_contains_nodo g a none)
    rw [← mem_dictKeys, hs2, mem_dictKeys] at h2
    exact h2
  have hcb : dictContains b ((g.add_nodo a none).1.add_nodo b none).1.adyacenciaD =
      true := by
    have h2 := add_nodo_contains_nodo (g.add_nodo a none).1 b none
    rw [← mem_dictKeys, hs2, mem_dictKeys] at h2
    exact h2
  have harista : g.add_arista a b p =
      { ((g.add_nodo a none).1.add_nodo b none).1 with
        adyacenciaD := dictAjusta b (fun l => l ++ [(a, p)])
          (dictAjusta a (fun l => l ++ [(b, p)])
            ((g.add_nodo a none).1.add_nodo b none).1.adyacenciaD),
        aristasL := (((g.add_nodo a none).1.add_nodo b none).1.aristasL ++
          [{ origen := a, destino := b, peso := p }]) ++
          [{ origen := b, destino := a, peso := p }] } := by
    simp only [Grafo.add_arista, hd2]
    rfl
  refine ⟨?_, ?_, ?_, ?_, ?_⟩
  · rw [harista]
    exact hd2
  · rw [harista]
    show dictKeys ((g.add_nodo a none).1.add_nodo b none).1.nodosD =
      dictKeys (dictAjusta b _ (dictAjusta a _ _))
    rw [dictKeys_ajusta, dictKeys_ajusta]
    exact hs2
  · rw [harista]
    show ((((g.add_nodo a none).1.add_nodo b none).1.aristasL ++ _) ++ _).length =
      g.aristasL.length + 2
    rw [List.length_append, List.length_append, har]
    rfl
  · rw [harista]
    show ((dictAjusta b (fun l => l ++ [(a, p)])
        (dictAjusta a (fun l => l ++ [(b, p)])
          ((g.add_nodo a none).1.add_nodo b none).1.adyacenciaD)).map
        (fun pr => pr.2.length)).sum = sumaAdy g + 2
    rw [sumaLargos_ajusta b (a, p) _
      (by rw [dictContains_ajusta]; exact hcb)]
    rw [sumaLargos_ajusta a (b, p) _ hca]
    rw [show ((((g.add_nodo a none).1.add_nodo b none).1.adyacenciaD).map
      (fun pr => pr.2.length)).sum =
      sumaAdy ((g.add_nodo a none).1.add_nodo b none).1 from rfl]
    rw [hsum]
  · intro u
    rw [harista]
    show (dictLookup u (dictAjusta b (fun l => l ++ [(a, p)])
        (dictAjusta a (fun l => l ++ [(b, p)])
          ((g.add_nodo a none).1.add_nodo b none).1.adyacenciaD))).getD [] =
      g.vecinos u ++ (if a = u then [(b, p)] else []) ++
        (if b = u then [(a, p)] else [])
    rw [dictLookup_ajusta, dictLookup_ajusta]
    by_cases hb2 : b = u <;> by_cases ha2 : a = u
    · subst hb2
      subst ha2
      obtain ⟨l, hl⟩ := dictContains_lookup hca
      have hvl : g.vecinos a = l := by
        rw [← hv2]
        unfold Grafo.vecinos
        rw [hl]
        rfl
      simp [hl, hvl]
    · subst hb2
      obtain ⟨l, hl⟩ := dictContains_lookup hcb
      have hvl : g.vecinos b = l := by
        rw [← hv2]
        unfold Grafo.vecinos
        rw [hl]
        rfl
      simp [hl, hvl, ha2]
    · subst ha2
      obtain ⟨l, hl⟩ := dictContains_lookup hca
      have hvl : g.vecinos a = l := by
        rw [← hv2]
        unfold Grafo.vecinos
        rw [hl]
        rfl
      simp [hl, hvl, hb2]
    · rw [if_neg hb2, if_neg ha2]
      have h2 : (dictLookup u
          ((g.add_nodo a none).1.add_nodo b none).1.adyacenciaD).getD [] =
          g.vecinos u := hv2 u
      simp [h2, hb2, ha2]

theorem add_arista_simetrico {α : Type} (g : Grafo α) (a b : String) (p : Rat)
    (ho : g.dirigido = false)
    (hs : dictKeys g.nodosD = dictKeys g.adyacenciaD)
    (hsim : Simetrico g) : Simetrico (g.add_arista a b p) := by
  have hv := (add_arista_caract g a b p ho hs).2.2.2.2
  have hmem : ∀ u v, (∃ w, (v, w) ∈ (g.add_arista a b p).vecinos u) ↔
      ((∃ w, (v, w) ∈ g.vecinos u) ∨ (a = u ∧ b = v) ∨ (b = u ∧ a = v)) := by
    intro u v
    rw [hv u]
    constructor
    · rintro ⟨w, hw⟩
      rcases List.mem_append.1 hw with h2 | h2
      · rcases List.mem_append.1 h2 with h3 | h3
        · exact Or.inl ⟨w, h3⟩
        · by_cases ha : a = u
          · rw [if_pos ha] at h3
            simp at h3
            exact Or.inr (Or.inl ⟨ha, h3.1.symm⟩)
          · rw [if_neg ha] at h3
            simp at h3
      · by_cases hb : b = u
        · rw [if_pos hb] at h2
          simp at h2
          exact Or.inr (Or.inr ⟨hb, h2.1.symm⟩)
        · rw [if_neg hb] at h2
          simp at h2
    · rintro (⟨w, hw⟩ | ⟨ha, hb⟩ | ⟨hb, ha⟩)
      · exact ⟨w, List.mem_append_left _ (List.mem_append_left _ hw)⟩
      · refine ⟨p, List.mem_append_left _ (List.mem_append_right _ ?_)⟩
        rw [if_pos ha, hb]
        exact List.mem_singleton_self _
      · refine ⟨p, List.mem_append_right _ ?_⟩
        rw [if_pos hb, ha]
        exact List.mem_singleton_self _
  intro u v
  rw [hmem u v, hmem v u]
  constructor
  · rintro (h2 | ⟨h2, h3⟩ | ⟨h2, h3⟩)
    · exact Or.inl ((hsim u v).1 h2)
    · exact Or.inr (Or.inr ⟨h3, h2⟩)
    · exact Or.inr (Or.inl ⟨h3, h2⟩)
  · rintro (h2 | ⟨h2, h3⟩ | ⟨h2, h3⟩)
    · exact Or.inl ((hsim v u).1 h2)
    · exact Or.inr (Or.inr ⟨h3, h2⟩)
    · exact Or.inr (Or.inl ⟨h3, h2⟩)

theorem aplicarAristas_cons {α : Type} (op : String × String × Rat)
    (rest : List (String × String × Rat)) (g : Grafo α) :
    aplicarAristas (op :: rest) g =
      aplicarAristas rest (g.add_arista op.1 op.2.1 op.2.2) := rfl

theorem aplicarAristas_spec {α : Type} :
    ∀ (ops : List (String × String × Rat)) (g : Grafo α),
      g.dirigido = false →
      dictKeys g.nodosD = dictKeys g.adyacenciaD →
      Simetrico g →
      (aplicarAristas ops g).dirigido = false ∧
      dictKeys (aplicarAristas ops g).nodosD =
        dictKeys (aplicarAristas ops g).adyacenciaD ∧
      Simetrico (aplicarAristas ops g) ∧
      (aplicarAristas ops g).aristasL.length =
        g.aristasL.length + 2 * ops.length ∧
      sumaAdy (aplicarAristas ops g) = sumaAdy g + 2 * ops.length := by
  intro ops
  induction ops with
  | nil =>
    intro g h1 h2 h3
    exact ⟨h1, h2, h3, by simp [aplicarAristas], by simp [aplicarAristas]⟩
  | cons op rest ih =>
    intro g h1 h2 h3
    obtain ⟨a, b, p⟩ := op
    have hc := add_arista_caract g a b p h1 h2
    have hsim := add_arista_simetrico g a b p h1 h2 h3
    have hrec := ih (g.add_arista a b p) hc.1 hc.2.1 hsim
    rw [aplicarAristas_cons]
    refine ⟨hrec.1, hrec.2.1, hrec.2.2.1, ?_, ?_⟩
    · rw [hrec.2.2.2.1, hc.2.2.1]
      simp
      omega
    · rw [hrec.2.2.2.2, hc.2.2.2.1]
      simp
      omega

/-- Claim C6: starting from an empty undirected graph, any sequence of
`add_arista` calls keeps the adjacency symmetric — `neighbors(u)` holds an
entry for `v` iff `neighbors(v)` holds one for `u` — and each logical edge
materializes as exactly two directed adjacency entries plus two `Arista`
records (directed mode performs no such mirroring). -/
theorem c6_simetria_no_dirigida {α : Type} (ops : List (String × String × Rat))
    (g : Grafo α) (hg : g = aplicarAristas ops (Grafo.nuevo false)) :
    (∀ u v, (∃ w, (v, w) ∈ g.vecinos u) ↔ (∃ w2, (u, w2) ∈ g.vecinos v)) ∧
    g.aristasL.length = 2 * ops.length ∧
    sumaAdy g = 2 * ops.length := by
  subst hg
  have hvacio : Simetrico (Grafo.nuevo false : Grafo α) := by
    intro u v
    simp [Grafo.vecinos, Grafo.nuevo, dictLookup]
  have h := aplicarAristas_spec ops (Grafo.nuevo false) rfl rfl hvacio
  refine ⟨h.2.2.1, ?_, ?_⟩
  · have h2 := h.2.2.2.1
    simpa [Grafo.nuevo] using h2
  · have h2 := h.2.2.2.2
    simpa [Grafo.nuevo, sumaAdy] using h2

/-! ## DFS invariant machinery -/

theorem dfsRun_nil {α : Type} (g : Grafo α) (padres : Dict (Option String))
    (prof : Dict Nat) (arist : List (String × String)) (orden : List String)
    (hp : ∀ fr ∈ ([] : List (String × List (String × Rat))),
      ∀ q ∈ fr.2, q.1 ∈ nombresVecinos g) :
    dfsRun g padres prof arist orden [] hp =
      { padres := padres, prof := prof, arist := arist, orden := orden } := by
  rw [dfsRun]

theorem dfsRun_frame_vacio {α : Type} (g : Grafo α) (padres : Dict (Option String))
    (prof : Dict Nat) (arist : List (String × String)) (orden : List String)
    (u : String) (resto : List (String × List (String × Rat)))
    (hp : ∀ fr ∈ (u, ([] : List (String × Rat))) :: resto,
      ∀ q ∈ fr.2, q.1 ∈ nombresVecinos g)
    (hp2 : ∀ fr ∈ resto, ∀ q ∈ fr.2, q.1 ∈ nombresVecinos g) :
    dfsRun g padres prof arist orden ((u, []) :: resto) hp =
      dfsRun g padres prof arist orden resto hp2 := by
  rw [dfsRun]

theorem dfsRun_visto {α : Type} (g : Grafo α) (padres : Dict (Option String))
    (prof : Dict Nat) (arist : List (String × String)) (orden : List String)
    (u v : String) (w : Rat) (vs : List (String × Rat))
    (resto : List (String × List (String × Rat)))
    (hp : ∀ fr ∈ (u, (v, w) :: vs) :: resto, ∀ q ∈ fr.2, q.1 ∈ nombresVecinos g)
    (hv : dictContains v padres = true)
    (hp2 : ∀ fr ∈ (u, vs) :: resto, ∀ q ∈ fr.2, q.1 ∈ nombresVecinos g) :
    dfsRun g padres prof arist orden ((u, (v, w) :: vs) :: resto) hp =
      dfsRun g padres prof arist orden ((u, vs) :: resto) hp2 := by
  rw [dfsRun]
  simp [hv]

theorem dfsRun_nuevo {α : Type} (g : Grafo α) (padres : Dict (Option String))
    (prof : Dict Nat) (arist : List (String × String)) (orden : List String)
    (u v : String) (w : Rat) (vs : List (String × Rat))
    (resto : List (String × List (String × Rat)))
    (hp : ∀ fr ∈ (u, (v, w) :: vs) :: resto, ∀ q ∈ fr.2, q.1 ∈ nombresVecinos g)
    (hv : dictContains v padres = false)
    (hp2 : ∀ fr ∈ (v, g.vecinos v) :: (u, vs) :: resto,
      ∀ q ∈ fr.2, q.1 ∈ nombresVecinos g) :
    dfsRun g padres prof arist orden ((u, (v, w) :: vs) :: resto) hp =
      dfsRun g (dictInsert v (some u) padres)
        (dictInsert v ((dictLookup u prof).getD 0 + 1) prof)
        (arist ++ [(u, v)]) (orden ++ [v])
        ((v, g.vecinos v) :: (u, vs) :: resto) hp2 := by
  rw [dfsRun]
  simp [hv]

/-- The invariant of the DFS stack machine: the visit order is exactly the
key-insertion order of `padres`/`profundidad`, every stack frame's node has
been visited, pending neighbor entries are real adjacency entries of their
frame node, and the usual parent/depth/tree-edge shape holds. -/
structure DfsInv {α : Type} (g : Grafo α) (inicio : String)
    (padres : Dict (Option String)) (prof : Dict Nat)
    (arist : List (String × String)) (orden : List String)
    (pila : List (String × List (String × Rat))) : Prop where
  claves : dictKeys padres = dictKeys prof
  nodup : (dictKeys padres).Nodup
  ordenEq : orden = dictKeys padres
  inicioPadre : dictLookup inicio padres = some none
  inicioProf : dictLookup inicio prof = some 0
  soloInicio : ∀ k, dictLookup k padres = some none → k = inicio
  paso : ∀ k p, dictLookup k padres = some (some p) →
    ∃ dk dp, dictLookup k prof = some dk ∧ dictLookup p prof = some dp ∧
      dk = dp + 1 ∧ ∃ w, (k, w) ∈ g.vecinos p
  pilaEnPadres : ∀ fr ∈ pila, dictContains fr.1 padres = true
  pilaVecinos : ∀ fr ∈ pila, ∀ q ∈ fr.2, q ∈ g.vecinos fr.1
  antes : ∀ k p, dictLookup k padres = some (some p) →
    ∃ pre post, dictKeys padres = pre ++ k :: post ∧ p ∈ pre
  arbolSnd : inicio :: arist.map Prod.snd = dictKeys padres
  arbolPadre : ∀ u v, (u, v) ∈ arist → dictLookup v padres = some (some u)
  arbolPre : ∀ pre u v post, arist = pre ++ (u, v) :: post →
    u ∈ inicio :: pre.map Prod.snd

theorem dfsInv_init {α : Type} (g : Grafo α) (inicio : String) :
    DfsInv g inicio (dictInsert inicio none []) (dictInsert inicio 0 [])
      [] [inicio] [(inicio, g.vecinos inicio)] := by
  refine {
    claves := by simp [dictInsert, dictKeys]
    nodup := by simp [dictInsert, dictKeys]
    ordenEq := by simp [dictInsert, dictKeys]
    inicioPadre := by simp [dictInsert, dictLookup]
    inicioProf := by simp [dictInsert, dictLookup]
    soloInicio := ?_
    paso := ?_
    pilaEnPadres := ?_
    pilaVecinos := ?_
    antes := ?_
    arbolSnd := by simp [dictInsert, dictKeys]
    arbolPadre := by simp
    arbolPre := by
      intro pre u v post h
      have h2 := congrArg List.length h
      simp at h2
      omega }
  · intro k hk
    simp [dictInsert, dictLookup] at hk
    exact hk.symm
  · intro k p hk
    simp [dictInsert, dictLookup] at hk
  · intro fr hfr
    simp only [List.mem_singleton] at hfr
    subst hfr
    exact dictContains_insert_self inicio none []
  · intro fr hfr q hq
    simp only [List.mem_singleton] at hfr
    subst hfr
    exact hq
  · intro k p hk
    simp [dictInsert, dictLookup] at hk

theorem dfsInv_nuevo {α : Type} (g : Grafo α) (inicio u v : String) (w : Rat)
    (vs : List (String × Rat)) (resto : List (String × List (String × Rat)))
    (padres : Dict (Option String)) (prof : Dict Nat)
    (arist : List (String × String)) (orden : List String)
    (hinv : DfsInv g inicio padres prof arist orden ((u, (v, w) :: vs) :: resto))
    (hv : dictContains v padres = false) :
    DfsInv g inicio (dictInsert v (some u) padres)
      (dictInsert v ((dictLookup u prof).getD 0 + 1) prof)
      (arist ++ [(u, v)]) (orden ++ [v])
      ((v, g.vecinos v) :: (u, vs) :: resto) := by
  have hu : dictContains u padres = true :=
    hinv.pilaEnPadres _ (List.mem_cons_self _ _)
  have hup : u ∈ dictKeys prof := by
    rw [← hinv.claves]
    exact (mem_dictKeys _ _).2 hu
  obtain ⟨du, hdu⟩ := dictContains_lookup ((mem_dictKeys _ _).1 hup)
  have hgetd : (dictLookup u prof).getD 0 = du := by rw [hdu]; rfl
  have hvprof : dictContains v prof = false := by
    cases h2 : dictContains v prof
    · rfl
    · have h3 := (mem_dictKeys v prof).2 h2
      rw [← hinv.claves, mem_dictKeys, hv] at h3
      cases h3
  have hne : ∀ k, k ∈ dictKeys padres → ¬ v = k := by
    intro k hk he
    rw [← he, mem_dictKeys, hv] at hk
    cases hk
  have hneProf : ∀ k, k ∈ dictKeys prof → ¬ v = k := by
    intro k hk
    rw [← hinv.claves] at hk
    exact hne k hk
  have hedge : (v, w) ∈ g.vecinos u :=
    hinv.pilaVecinos _ (List.mem_cons_self _ _) (v, w) (List.mem_cons_self _ _)
  refine {
    claves := by
      rw [dictKeys_insert_fresh _ hv, dictKeys_insert_fresh _ hvprof, hinv.claves]
    nodup := dictKeys_nodup_insert v _ padres hinv.nodup
    ordenEq := by
      rw [dictKeys_insert_fresh _ hv, hinv.ordenEq]
    inicioPadre := by
      rw [dictLookup_insert,
        if_neg (hne inicio (dictLookup_some_mem hinv.inicioPadre))]
      exact hinv.inicioPadre
    inicioProf := by
      rw [dictLookup_insert,
        if_neg (hneProf inicio (dictLookup_some_mem hinv.inicioProf))]
      exact hinv.inicioProf
    soloInicio := ?_
    paso := ?_
    pilaEnPadres := ?_
    pilaVecinos := ?_
    antes := ?_
    arbolSnd := by
      rw [dictKeys_insert_fresh _ hv, ← hinv.arbolSnd]
      simp
    arbolPadre := ?_
    arbolPre := ?_ }
  · intro k hk
    rw [dictLookup_insert] at hk
    by_cases h2 : v = k
    · rw [if_pos h2] at hk
      cases hk
    · rw [if_neg h2] at hk
      exact hinv.soloInicio k hk
  · intro k p hk
    rw [dictLookup_insert] at hk
    by_cases h2 : v = k
    · rw [if_pos h2] at hk
      have hp : u = p := by
        have h3 := Option.some_inj.1 hk
        exact Option.some_inj.1 h3
      subst hp
      subst h2
      refine ⟨du + 1, du, ?_, ?_, rfl, w, hedge⟩
      · rw [dictLookup_insert, if_pos rfl, hgetd]
      · rw [dictLookup_insert, if_neg (hneProf u hup)]
        exact hdu
    · rw [if_neg h2] at hk
      obtain ⟨dk, dp, e1, e2, heq, w2, hw2⟩ := hinv.paso k p hk
      refine ⟨dk, dp, ?_, ?_, heq, w2, hw2⟩
      · rw [dictLookup_insert, if_neg h2]
        exact e1
      · rw [dictLookup_insert,
          if_neg (hneProf p (dictLookup_some_mem e2))]
        exact e2
  · intro fr hfr
    rcases List.mem_cons.1 hfr with h2 | h2
    · subst h2
      exact dictContains_insert_self v (some u) padres
    · rcases List.mem_cons.1 h2 with h3 | h3
      · subst h3
        rw [dictContains_insert, hu]
        simp
      · rw [dictContains_insert, hinv.pilaEnPadres fr (List.mem_cons_of_mem _ h3)]
        simp
  · intro fr hfr q hq
    rcases List.mem_cons.1 hfr with h2 | h2
    · subst h2
      exact hq
    · rcases List.mem_cons.1 h2 with h3 | h3
      · subst h3
        exact hinv.pilaVecinos (u, (v, w) :: vs) (List.mem_cons_self _ _) q
          (List.mem_cons_of_mem _ hq)
      · exact hinv.pilaVecinos fr (List.mem_cons_of_mem _ h3) q hq
  · intro k p hk
    rw [dictLookup_insert] at hk
    by_cases h2 : v = k
    · rw [if_pos h2] at hk
      have hp : u = p := by
        have h3 := Option.some_inj.1 hk
        exact Option.some_inj.1 h3
      subst hp
      subst h2
      refine ⟨dictKeys padres, [], ?_, (mem_dictKeys _ _).2 hu⟩
      rw [dictKeys_insert_fresh _ hv]
    · rw [if_neg h2] at hk
      obtain ⟨pre, post, heq, hp⟩ := hinv.antes k p hk
      refine ⟨pre, post ++ [v], ?_, hp⟩
      rw [dictKeys_insert_fresh _ hv, heq]
      simp
  · intro u2 v2 huv
    rcases List.mem_append.1 huv with h2 | h2
    · have h3 := hinv.arbolPadre u2 v2 h2
      rw [dictLookup_insert, if_neg (hne v2 (dictLookup_some_mem h3))]
      exact h3
    · simp only [List.mem_singleton] at h2
      have hu2 : u2 = u := congrArg Prod.fst h2
      have hv2 : v2 = v := congrArg Prod.snd h2
      subst hu2
      subst hv2
      rw [dictLookup_insert, if_pos rfl]
  · intro pre u2 v2 post heq
    have hmemGen : u ∈ inicio :: arist.map Prod.snd := by
      rw [hinv.arbolSnd]
      exact (mem_dictKeys _ _).2 hu
    rcases List.append_eq_append_iff.1 heq with ⟨a2, hpre, hsingle⟩ |
      ⟨c2, harist, hrest⟩
    · cases a2 with
      | nil =>
        rw [List.append_nil] at hpre
        rw [List.nil_append] at hsingle
        have h4 : (u, v) = (u2, v2) := by
          have h3 := congrArg List.head? hsingle
          simpa using h3
        have hu2 : u = u2 := congrArg Prod.fst h4
        rw [hpre, ← hu2]
        exact hmemGen
      | cons x t =>
        have h3 := congrArg List.length hsingle
        simp at h3
    · cases c2 with
      | nil =>
        rw [List.append_nil] at harist
        rw [List.nil_append] at hrest
        have h4 : (u2, v2) = (u, v) := by
          have h3 := congrArg List.head? hrest
          simpa using h3
        have hu2 : u2 = u := congrArg Prod.fst h4
        rw [← harist, hu2]
        exact hmemGen
      | cons c0 ct =>
        have hc0 : c0 = (u2, v2) := by
          have h3 := congrArg List.head? hrest
          simpa using h3.symm
        subst hc0
        exact hinv.arbolPre pre u2 v2 ct (by rw [harist])

theorem dfsInv_resto {α : Type} {g : Grafo α} {inicio : String}
    {padres : Dict (Option String)} {prof : Dict Nat}
    {arist : List (String × String)} {orden : List String}
    {fr : String × List (String × Rat)}
    {resto : List (String × List (String × Rat))}
    (hinv : DfsInv g inicio padres prof arist orden (fr :: resto)) :
    DfsInv g inicio padres prof arist orden resto :=
  { claves := hinv.claves, nodup := hinv.nodup, ordenEq := hinv.ordenEq
    inicioPadre := hinv.inicioPadre, inicioProf := hinv.inicioProf
    soloInicio := hinv.soloInicio, paso := hinv.paso
    pilaEnPadres := fun fr2 h => hinv.pilaEnPadres fr2 (List.mem_cons_of_mem _ h)
    pilaVecinos := fun fr2 h => hinv.pilaVecinos fr2 (List.mem_cons_of_mem _ h)
    antes := hinv.antes, arbolSnd := hinv.arbolSnd
    arbolPadre := hinv.arbolPadre, arbolPre := hinv.arbolPre }

theorem dfsInv_encoger {α : Type} {g : Grafo α} {inicio : String}
    {padres : Dict (Option String)} {prof : Dict Nat}
    {arist : List (String × String)} {orden : List String} {u : String}
    {q0 : String × Rat} {vs : List (String × Rat)}
    {resto : List (String × List (String × Rat))}
    (hinv : DfsInv g inicio padres prof arist orden ((u, q0 :: vs) :: resto)) :
    DfsInv g inicio padres prof arist orden ((u, vs) :: resto) :=
  { claves := hinv.claves, nodup := hinv.nodup, ordenEq := hinv.ordenEq
    inicioPadre := hinv.inicioPadre, inicioProf := hinv.inicioProf
    soloInicio := hinv.soloInicio, paso := hinv.paso
    pilaEnPadres := by
      intro fr2 h
      rcases List.mem_cons.1 h with h2 | h2
      · subst h2
        exact hinv.pilaEnPadres (u, q0 :: vs) (List.mem_cons_self _ _)
      · exact hinv.pilaEnPadres fr2 (List.mem_cons_of_mem _ h2)
    pilaVecinos := by
      intro fr2 h q hq
      rcases List.mem_cons.1 h with h2 | h2
      · subst h2
        exact hinv.pilaVecinos (u, q0 :: vs) (List.mem_cons_self _ _) q
          (List.mem_cons_of_mem _ hq)
      · exact hinv.pilaVecinos fr2 (List.mem_cons_of_mem _ h2) q hq
    antes := hinv.antes, arbolSnd := hinv.arbolSnd
    arbolPadre := hinv.arbolPadre, arbolPre := hinv.arbolPre }

theorem dfsInv_vaciar {α : Type} {g : Grafo α} {inicio : String}
    {padres : Dict (Option String)} {prof : Dict Nat}
    {arist : List (String × String)} {orden : List String}
    {pila : List (String × List (String × Rat))}
    (hinv : DfsInv g inicio padres prof arist orden pila) :
    DfsInv g inicio padres prof arist orden [] :=
  { claves := hinv.claves, nodup := hinv.nodup, ordenEq := hinv.ordenEq
    inicioPadre := hinv.inicioPadre, inicioProf := hinv.inicioProf
    soloInicio := hinv.soloInicio, paso := hinv.paso
    pilaEnPadres := by simp
    pilaVecinos := by simp
    antes := hinv.antes, arbolSnd := hinv.arbolSnd
    arbolPadre := hinv.arbolPadre, arbolPre := hinv.arbolPre }

theorem dfsRun_spec {α : Type} (g : Grafo α) (inicio : String) :
    ∀ (n : Nat) (padres : Dict (Option String)) (prof : Dict Nat)
      (arist : List (String × String)) (orden : List String)
      (pila : List (String × List (String × Rat)))
      (hp : ∀ fr ∈ pila, ∀ q ∈ fr.2, q.1 ∈ nombresVecinos g),
      (2 * (nombresVecinos g).length + 2) * faltantes (nombresVecinos g) padres +
        2 * sumaTam pila + pila.length ≤ n →
      DfsInv g inicio padres prof arist orden pila →
      DfsInv g inicio (dfsRun g padres prof arist orden pila hp).padres
        (dfsRun g padres prof arist orden pila hp).prof
        (dfsRun g padres prof arist orden pila hp).arist
        (dfsRun g padres prof arist orden pila hp).orden [] := by
  intro n
  induction n with
  | zero =>
    intro padres prof arist orden pila hp hn hinv
    cases pila with
    | nil =>
      rw [dfsRun_nil]
      exact dfsInv_vaciar hinv
    | cons fr resto => simp [sumaTam] at hn
  | succ n ih =>
    intro padres prof arist orden pila hp hn hinv
    cases pila with
    | nil =>
      rw [dfsRun_nil]
      exact dfsInv_vaciar hinv
    | cons fr resto =>
      obtain ⟨u, l⟩ := fr
      cases l with
      | nil =>
        rw [dfsRun_frame_vacio g padres prof arist orden u resto hp
          (fun fr2 hfr => hp fr2 (List.mem_cons_of_mem _ hfr))]
        apply ih
        · simp only [sumaTam, List.map_cons, List.sum_cons, List.length_cons] at hn ⊢
          omega
        · exact dfsInv_resto hinv
      | cons q0 vs =>
        obtain ⟨v, w⟩ := q0
        by_cases hv : dictContains v padres
        · rw [dfsRun_visto g padres prof arist orden u v w vs resto hp hv
            (by
              intro fr2 hfr q hq
              rcases List.mem_cons.1 hfr with h2 | h2
              · subst h2
                exact hp (u, (v, w) :: vs) (List.mem_cons_self _ _) q
                  (List.mem_cons_of_mem _ hq)
              · exact hp fr2 (List.mem_cons_of_mem _ h2) q hq)]
          apply ih
          · simp only [sumaTam, List.map_cons, List.sum_cons,
              List.length_cons] at hn ⊢
            omega
          · exact dfsInv_encoger hinv
        · have hv2 : dictContains v padres = false := by simpa using hv
          rw [dfsRun_nuevo g padres prof arist orden u v w vs resto hp hv2
            (by
              intro fr2 hfr q hq
              rcases List.mem_cons.1 hfr with h2 | h2
              · subst h2
                exact vecinos_mem_nombres g v q.1 q.2 (by simpa using hq)
              · rcases List.mem_cons.1 h2 with h3 | h3
                · subst h3
                  exact hp (u, (v, w) :: vs) (List.mem_cons_self _ _) q
                    (List.mem_cons_of_mem _ hq)
                · exact hp fr2 (List.mem_cons_of_mem _ h3) q hq)]
          apply ih
          · have hvu : v ∈ nombresVecinos g :=
              hp (u, (v, w) :: vs) (List.mem_cons_self _ _) (v, w)
                (List.mem_cons_self _ _)
            have h1 := faltantes_insert_lt (nombresVecinos g) v (some u) padres
              hvu hv2
            have h2 := vecinos_length_le g v
            have h4 : (2 * (nombresVecinos g).length + 2) *
                (faltantes (nombresVecinos g) (dictInsert v (some u) padres) + 1) ≤
                (2 * (nombresVecinos g).length + 2) *
                  faltantes (nombresVecinos g) padres :=
              Nat.mul_le_mul_left _ h1
            rw [Nat.mul_add, Nat.mul_one] at h4
            simp only [sumaTam, List.map_cons, List.sum_cons,
              List.length_cons] at hn ⊢
            omega
          · exact dfsInv_nuevo g inicio u v w vs resto padres prof arist orden
              hinv hv2

theorem dfsInv_final {α : Type} (g : Grafo α) (inicio : String) :
    DfsInv g inicio (g.dfsNucleo inicio).padres (g.dfsNucleo inicio).prof
      (g.dfsNucleo inicio).arist (g.dfsNucleo inicio).orden [] := by
  unfold Grafo.dfsNucleo
  exact dfsRun_spec g inicio _ _ _ _ _ _ _ (Nat.le_refl _) (dfsInv_init g inicio)

theorem dfsInv_invPadres {α : Type} {g : Grafo α} {inicio : String}
    {padres : Dict (Option String)} {prof : Dict Nat}
    {arist : List (String × String)} {orden : List String}
    {pila : List (String × List (String × Rat))}
    (hinv : DfsInv g inicio padres prof arist orden pila) :
    InvPadres padres prof inicio := by
  refine { claves := hinv.claves
           inicioPadre := hinv.inicioPadre
           inicioProf := hinv.inicioProf
           soloInicio := hinv.soloInicio
           paso := ?_ }
  intro k p hk
  obtain ⟨dk, dp, e1, e2, heq, _⟩ := hinv.paso k p hk
  exact ⟨dk, dp, e1, e2, heq⟩

theorem mem_dictLookup_nodup {β : Type} :
    ∀ {d : Dict β}, (dictKeys d).Nodup →
      ∀ {k : String} {v : β}, (k, v) ∈ d → dictLookup k d = some v := by
  intro d
  induction d with
  | nil =>
    intro _ k v h
    simp at h
  | cons pr r ih =>
    obtain ⟨k2, v2⟩ := pr
    intro hnod k v hm
    have hnod2 : (dictKeys r).Nodup ∧ ¬ k2 ∈ dictKeys r := by
      rw [dictKeys_cons] at hnod
      rw [List.nodup_cons] at hnod
      exact ⟨hnod.2, hnod.1⟩
    rcases List.mem_cons.1 hm with h2 | h2
    · have he1 : k = k2 := congrArg Prod.fst h2
      have he2 : v = v2 := congrArg Prod.snd h2
      subst he1
      subst he2
      rw [dictLookup_cons, if_pos rfl]
    · have hk2 : ¬ k2 = k := by
        intro he
        subst he
        have : k2 ∈ dictKeys r := by
          rw [dictKeys]
          exact List.mem_map.2 ⟨(k2, v), h2, rfl⟩
        exact hnod2.2 this
      rw [dictLookup_cons, if_neg hk2]
      exact ih hnod2.1 h2

/-- Python's `max(d, key=d.get)` as the fold in `primerMax`: the result
attains the maximum value and is the first entry doing so. -/
theorem primerMaxFold_spec :
    ∀ (resto : List (String × Nat)) (b0 : String × Nat),
      (resto.foldl (fun best kv => if best.2 < kv.2 then kv else best) b0) ∈
          b0 :: resto ∧
      (∀ t ∈ b0 :: resto, t.2 ≤
        (resto.foldl (fun best kv => if best.2 < kv.2 then kv else best) b0).2) ∧
      ∃ pre post, b0 :: resto = pre ++
          (resto.foldl (fun best kv => if best.2 < kv.2 then kv else best) b0)
            :: post ∧
        ∀ t ∈ pre, t.2 <
          (resto.foldl (fun best kv => if best.2 < kv.2 then kv else best) b0).2 := by
  intro resto
  induction resto with
  | nil =>
    intro b0
    refine ⟨List.mem_cons_self _ _, ?_, [], [], rfl, by simp⟩
    intro t ht
    simp at ht
    subst ht
    exact Nat.le_refl _
  | cons e1 rest ih =>
    intro b0
    by_cases hcmp : b0.2 < e1.2
    · obtain ⟨hmem, hmin, pre', post', hsplit, hstrict⟩ := ih e1
      rw [List.foldl_cons, if_pos hcmp]
      refine ⟨?_, ?_, ?_⟩
      · rcases List.mem_cons.1 hmem with h2 | h2
        · rw [h2]
          exact List.mem_cons_of_mem _ (List.mem_cons_self _ _)
        · exact List.mem_cons_of_mem _ (List.mem_cons_of_mem _ h2)
      · intro t ht
        rcases List.mem_cons.1 ht with h2 | h2
        · subst h2
          have h3 := hmin e1 (List.mem_cons_self _ _)
          omega
        · exact hmin t h2
      · cases pre' with
        | nil =>
          have hm : rest.foldl (fun best kv => if best.2 < kv.2 then kv else best)
              e1 = e1 := by
            have h2 := congrArg List.head? hsplit
            simpa using h2.symm
          refine ⟨[b0], rest, by rw [hm]; simp, ?_⟩
          intro t ht
          simp at ht
          subst ht
          rw [hm]
          exact hcmp
        | cons p0 pt =>
          have hp0 : e1 = p0 := by
            have h2 := congrArg List.head? hsplit
            simpa using h2
          have hrest : rest = pt ++
              (rest.foldl (fun best kv => if best.2 < kv.2 then kv else best) e1)
                :: post' := by
            have h2 := congrArg List.tail hsplit
            simpa using h2
          refine ⟨b0 :: e1 :: pt, post',
            by rw [List.cons_append, List.cons_append, ← hrest], ?_⟩
          intro t ht
          rcases List.mem_cons.1 ht with h2 | h2
          · subst h2
            have h3 := hstrict e1 (by rw [hp0]; exact List.mem_cons_self _ _)
            omega
          · rw [hp0] at h2
            exact hstrict t h2
    · obtain ⟨hmem, hmin, pre', post', hsplit, hstrict⟩ := ih b0
      rw [List.foldl_cons, if_neg hcmp]
      refine ⟨?_, ?_, ?_⟩
      · rcases List.mem_cons.1 hmem with h2 | h2
        · rw [h2]
          exact List.mem_cons_self _ _
        · exact List.mem_cons_of_mem _ (List.mem_cons_of_mem _ h2)
      · intro t ht
        rcases List.mem_cons.1 ht with h2 | h2
        · subst h2
          exact hmin t (List.mem_cons_self _ _)
        · rcases List.mem_cons.1 h2 with h3 | h3
          · subst h3
            have h4 := hmin b0 (List.mem_cons_self _ _)
            omega
          · exact hmin t (List.mem_cons_of_mem _ h3)
      · cases pre' with
        | nil =>
          have hm : rest.foldl (fun best kv => if best.2 < kv.2 then kv else best)
              b0 = b0 := by
            have h2 := congrArg List.head? hsplit
            simpa using h2.symm
          exact ⟨[], e1 :: rest, by rw [hm]; simp, by simp⟩
        | cons p0 pt =>
          have hp0 : b0 = p0 := by
            have h2 := congrArg List.head? hsplit
            simpa using h2
          have hrest : rest = pt ++
              (rest.foldl (fun best kv => if best.2 < kv.2 then kv else best) b0)
                :: post' := by
            have h2 := congrArg List.tail hsplit
            simpa using h2
          refine ⟨b0 :: e1 :: pt, post',
            by rw [List.cons_append, List.cons_append, ← hrest], ?_⟩
          intro t ht
          rcases List.mem_cons.1 ht with h2 | h2
          · subst h2
            refine hstrict t ?_
            rw [hp0]
            exact List.mem_cons_self _ _
          · rcases List.mem_cons.1 h2 with h3 | h3
            · subst h3
              have h4 := hstrict b0 (by rw [hp0]; exact List.mem_cons_self _ _)
              omega
            · refine hstrict t ?_
              rw [← hp0]
              exact List.mem_cons_of_mem _ h3

theorem primerMax_spec {prof : Dict Nat} (hnodup : (dictKeys prof).Nodup)
    {m : String} (hm : primerMax prof = some m) :
    ∃ dm, dictLookup m prof = some dm ∧
      (∀ k v, dictLookup k prof = some v → v ≤ dm) ∧
      ∃ pre post, dictKeys prof = pre ++ m :: post ∧
        ∀ k ∈ pre, ∀ v, dictLookup k prof = some v → v < dm := by
  cases prof with
  | nil => simp [primerMax] at hm
  | cons e0 resto =>
    obtain ⟨k0, v0⟩ := e0
    simp only [primerMax, Option.some_inj] at hm
    obtain ⟨hmem, hmax, pre, post, hsplit, hstrict⟩ :=
      primerMaxFold_spec resto (k0, v0)
    have hlook : dictLookup
        (resto.foldl (fun best kv => if best.2 < kv.2 then kv else best)
          (k0, v0)).1 ((k0, v0) :: resto) = some
        (resto.foldl (fun best kv => if best.2 < kv.2 then kv else best)
          (k0, v0)).2 := by
      apply mem_dictLookup_nodup hnodup
      simpa using hmem
    refine ⟨(resto.foldl (fun best kv => if best.2 < kv.2 then kv else best)
        (k0, v0)).2, by rw [← hm]; exact hlook, ?_, ?_⟩
    · intro k v hkv
      have h2 := dictLookup_mem k _ v hkv
      exact hmax (k, v) h2
    · refine ⟨pre.map Prod.fst, post.map Prod.fst, ?_, ?_⟩
      · rw [← hm]
        rw [show dictKeys ((k0, v0) :: resto) =
          ((k0, v0) :: resto).map Prod.fst from rfl, hsplit]
        simp
      · intro k hk v hkv
        obtain ⟨e2, hmem2, he⟩ := List.mem_map.1 hk
        obtain ⟨k2, v2⟩ := e2
        have h3 := hstrict (k2, v2) hmem2
        have hmemProf : (k2, v2) ∈ (k0, v0) :: resto := by
          rw [hsplit]
          exact List.mem_append_left _ hmem2
        have h4 : dictLookup k2 ((k0, v0) :: resto) = some v2 :=
          mem_dictLookup_nodup hnodup hmemProf
        have he2 : k2 = k := he
        subst he2
        rw [hkv] at h4
        have hv : v = v2 := Option.some_inj.1 h4
        subst hv
        exact h3

theorem dfs_eq_ok {α : Type} (g : Grafo α) (inicio : String) (goal : Option String)
    (h : dictContains inicio g.nodosD = true) (ruta : Option (List String))
    (m : String) (deepest : Option (List String))
    (hruta : ((match goal with
      | none => Except.ok none
      | some go => Grafo.reconstruir (g.dfsNucleo inicio).padres inicio go) :
      Except PyErr (Option (List String))) = Except.ok ruta)
    (hm : primerMax (g.dfsNucleo inicio).prof = some m)
    (hdeep : Grafo.reconstruir (g.dfsNucleo inicio).padres inicio m =
      Except.ok deepest) :
    Grafo.dfs g inicio goal = Except.ok {
      parents := (g.dfsNucleo inicio).padres
      tree := Grafo.construirArbol inicio (g.dfsNucleo inicio).arist
      dfs_path := ruta
      deepest_path := deepest
      order := (g.dfsNucleo inicio).orden } := by
  simp only [Grafo.dfs, h, if_true, hruta, hm, hdeep]

/-- Claim C5: for a known start, `dfs` always computes `deepest_path`
(whether or not a goal is given): `profundidad` is one more at a child than
at its DFS parent, the selected deepest node is the first maximum in the
depth dict's insertion order, and the reconstructed route runs from the
start to that node with exactly `max(depth)` edges (`p.length = dm + 1`
nodes). -/
theorem c5_dfs_camino_profundo {α : Type} (g : Grafo α) (inicio : String)
    (goal : Option String) (h : dictContains inicio g.nodosD = true) :
    ∃ (r : DfsRes α) (m : String) (dm : Nat) (p : List String),
      Grafo.dfs g inicio goal = Except.ok r ∧
      primerMax (g.dfsNucleo inicio).prof = some m ∧
      dictLookup m (g.dfsNucleo inicio).prof = some dm ∧
      (∀ k v, dictLookup k (g.dfsNucleo inicio).prof = some v → v ≤ dm) ∧
      (∃ pre post, dictKeys (g.dfsNucleo inicio).prof = pre ++ m :: post ∧
        ∀ k ∈ pre, ∀ v, dictLookup k (g.dfsNucleo inicio).prof = some v →
          v < dm) ∧
      r.deepest_path = some p ∧ p.length = dm + 1 ∧
      p.head? = some inicio ∧ p.getLast? = some m ∧
      (∀ k q, dictLookup k (g.dfsNucleo inicio).padres = some (some q) →
        ∃ dk dq, dictLookup k (g.dfsNucleo inicio).prof = some dk ∧
          dictLookup q (g.dfsNucleo inicio).prof = some dq ∧ dk = dq + 1) := by
  have hinv := dfsInv_final g inicio
  have hip := dfsInv_invPadres hinv
  have hnodProf : (dictKeys (g.dfsNucleo inicio).prof).Nodup := by
    rw [← hinv.claves]
    exact hinv.nodup
  have hne : (g.dfsNucleo inicio).prof ≠ [] := by
    intro he
    have h2 := hip.inicioProf
    rw [he] at h2
    simp [dictLookup] at h2
  obtain ⟨m, hm⟩ : ∃ m, primerMax (g.dfsNucleo inicio).prof = some m := by
    cases hp : (g.dfsNucleo inicio).prof with
    | nil => exact absurd hp hne
    | cons e r2 =>
      obtain ⟨k0, v0⟩ := e
      exact ⟨(r2.foldl (fun best kv => if best.2 < kv.2 then kv else best)
        (k0, v0)).1, by simp [primerMax]⟩
  obtain ⟨dm, hdm, hmax, hfirst⟩ := primerMax_spec hnodProf hm
  obtain ⟨p, hrec, hlen, hhead, hlast⟩ := reconstruir_invPadres_mem hip m dm hdm
  obtain ⟨ruta, hruta⟩ : ∃ ruta, ((match goal with
      | none => Except.ok none
      | some go => Grafo.reconstruir (g.dfsNucleo inicio).padres inicio go) :
      Except PyErr (Option (List String))) = Except.ok ruta := by
    cases goal with
    | none => exact ⟨none, rfl⟩
    | some go => exact reconstruir_invPadres_ok hip go
  exact ⟨_, m, dm, p,
    dfs_eq_ok g inicio goal h ruta m (some p) hruta hm hrec,
    hm, hdm, hmax, hfirst, rfl, hlen, hhead, hlast, hip.paso⟩

theorem dfs_ok_existe {α : Type} (g : Grafo α) (inicio : String)
    (goal : Option String) (h : dictContains inicio g.nodosD = true) :
    ∃ r : DfsRes α, Grafo.dfs g inicio goal = Except.ok r ∧
      r.parents = (g.dfsNucleo inicio).padres ∧
      r.order = (g.dfsNucleo inicio).orden ∧
      r.tree = Grafo.construirArbol inicio (g.dfsNucleo inicio).arist := by
  have hinv := dfsInv_final g inicio
  have hip := dfsInv_invPadres hinv
  have hne : (g.dfsNucleo inicio).prof ≠ [] := by
    intro he
    have h2 := hip.inicioProf
    rw [he] at h2
    simp [dictLookup] at h2
  obtain ⟨m, hm⟩ : ∃ m, primerMax (g.dfsNucleo inicio).prof = some m := by
    cases hp : (g.dfsNucleo inicio).prof with
    | nil => exact absurd hp hne
    | cons e r2 =>
      obtain ⟨k0, v0⟩ := e
      exact ⟨(r2.foldl (fun best kv => if best.2 < kv.2 then kv else best)
        (k0, v0)).1, by simp [primerMax]⟩
  obtain ⟨deepest, hdeep⟩ := reconstruir_invPadres_ok hip m
  obtain ⟨ruta, hruta⟩ : ∃ ruta, ((match goal with
      | none => Except.ok none
      | some go => Grafo.reconstruir (g.dfsNucleo inicio).padres inicio go) :
      Except PyErr (Option (List String))) = Except.ok ruta := by
    cases goal with
    | none => exact ⟨none, rfl⟩
    | some go => exact reconstruir_invPadres_ok hip go
  exact ⟨_, dfs_eq_ok g inicio goal h ruta m deepest hruta hm hdeep,
    rfl, rfl, rfl⟩

/-- Claim C10: for a known start, the BFS bundle is internally consistent —
`distances` and `parents` have the same key set, `order` lists exactly
those keys, each exactly once, and every non-start node's BFS parent
appears strictly earlier in `order` — and likewise the DFS parent and
depth dicts have the same key set, listed exactly once by the DFS `order`. -/
theorem c10_consistencia_resultados {α : Type} (g : Grafo α) (inicio : String)
    (goal : Option String) (h : dictContains inicio g.nodosD = true) :
    (∃ r : BfsRes α, Grafo.bfs g inicio goal = Except.ok r ∧
      dictKeys r.distances = dictKeys r.parents ∧
      r.order = dictKeys r.distances ∧ r.order.Nodup ∧
      ∀ k p, dictLookup k r.parents = some (some p) →
        ∃ pre post, r.order = pre ++ k :: post ∧ p ∈ pre) ∧
    (∃ r2 : DfsRes α, Grafo.dfs g inicio goal = Except.ok r2 ∧
      r2.parents = (g.dfsNucleo inicio).padres ∧
      r2.order = (g.dfsNucleo inicio).orden ∧
      dictKeys (g.dfsNucleo inicio).padres =
        dictKeys (g.dfsNucleo inicio).prof ∧
      (g.dfsNucleo inicio).orden = dictKeys (g.dfsNucleo inicio).padres ∧
      (g.dfsNucleo inicio).orden.Nodup) := by
  constructor
  · have hinv := bfsInv_final g inicio
    have hip := bfsInv_invPadres hinv
    obtain ⟨ruta, hruta⟩ : ∃ ruta, ((match goal with
        | none => Except.ok none
        | some go => Grafo.reconstruir (bfsSalidaDe g inicio).padres inicio go) :
        Except PyErr (Option (List String))) = Except.ok ruta := by
      cases goal with
      | none => exact ⟨none, rfl⟩
      | some go => exact reconstruir_invPadres_ok hip go
    have horden : (bfsSalidaDe g inicio).orden =
        dictKeys (bfsSalidaDe g inicio).dist := by
      have h2 := hinv.ordenCola
      simpa using h2
    refine ⟨_, bfs_eq_ok g inicio goal h ruta hruta, ?_, ?_, ?_, ?_⟩
    · exact hinv.clavesPadres.symm
    · exact horden
    · show (bfsSalidaDe g inicio).orden.Nodup
      rw [horden]
      exact hinv.nodup
    · intro k p hk
      obtain ⟨pre, post, heq, hp1, _⟩ := hinv.antes k p hk
      refine ⟨pre, post, ?_, hp1⟩
      show (bfsSalidaDe g inicio).orden = pre ++ k :: post
      rw [← heq]
      simp
  · have hinv := dfsInv_final g inicio
    obtain ⟨r2, hr2, hpar, hord, htree⟩ := dfs_ok_existe g inicio goal h
    refine ⟨r2, hr2, hpar, hord, hinv.claves, hinv.ordenEq, ?_⟩
    rw [hinv.ordenEq]
    exact hinv.nodup

theorem add_nodo_claves_fresco {α : Type} (g : Grafo α) (k : String)
    (d : Option α) (h : dictContains k g.nodosD = false) :
    dictKeys (g.add_nodo k d).1.nodosD = dictKeys g.nodosD ++ [k] := by
  unfold Grafo.add_nodo
  have hl : dictLookup k g.nodosD = none := by
    cases h2 : dictLookup k g.nodosD with
    | none => rfl
    | some n =>
      rw [dictContains, h2] at h
      cases h
  rw [hl]
  exact dictKeys_insert_fresh _ h

theorem add_arista_dirigido_nuevo {α : Type} (g : Grafo α) (a b : String)
    (p : Rat) (ho : g.dirigido = true)
    (hs : dictKeys g.nodosD = dictKeys g.adyacenciaD)
    (hca : dictContains a g.nodosD = true)
    (hcb : dictContains b g.nodosD = false) :
    (g.add_arista a b p).dirigido = true ∧
    dictKeys (g.add_arista a b p).nodosD = dictKeys g.nodosD ++ [b] ∧
    dictKeys (g.add_arista a b p).nodosD =
      dictKeys (g.add_arista a b p).adyacenciaD ∧
    (g.add_arista a b p).aristasL =
      g.aristasL ++ [{ origen := a, destino := b, peso := p }] := by
  obtain ⟨na, hna⟩ := dictContains_lookup hca
  have hg1 : (g.add_nodo a none).1 = g := by
    rw [add_nodo_existente g a none na hna]
  have hs2 : dictKeys ((g.add_nodo a none).1.add_nodo b none).1.nodosD =
      dictKeys ((g.add_nodo a none).1.add_nodo b none).1.adyacenciaD :=
    add_nodo_sync _ b none (by rw [hg1]; exact hs)
  have hd2 : ((g.add_nodo a none).1.add_nodo b none).1.dirigido = true := by
    rw [add_nodo_dirigido, hg1, ho]
  have hk2 : dictKeys ((g.add_nodo a none).1.add_nodo b none).1.nodosD =
      dictKeys g.nodosD ++ [b] := by
    rw [show ((g.add_nodo a none).1.add_nodo b none).1 =
      (g.add_nodo b none).1 by rw [hg1]]
    exact add_nodo_claves_fresco g b none hcb
  have har : ((g.add_nodo a none).1.add_nodo b none).1.aristasL =
      g.aristasL := by
    rw [add_nodo_aristas, hg1]
  have harista : g.add_arista a b p =
      { ((g.add_nodo a none).1.add_nodo b none).1 with
        adyacenciaD := dictAjusta a (fun l => l ++ [(b, p)])
          ((g.add_nodo a none).1.add_nodo b none).1.adyacenciaD,
        aristasL := ((g.add_nodo a none).1.add_nodo b none).1.aristasL ++
          [{ origen := a, destino := b, peso := p }] } := by
    simp only [Grafo.add_arista, hd2]
    rfl
  refine ⟨?_, ?_, ?_, ?_⟩
  · rw [harista]
    exact hd2
  · rw [harista]
    exact hk2
  · rw [harista]
    show dictKeys ((g.add_nodo a none).1.add_nodo b none).1.nodosD =
      dictKeys (dictAjusta a _ _)
    rw [dictKeys_ajusta]
    exact hs2
  · rw [harista]
    show ((g.add_nodo a none).1.add_nodo b none).1.aristasL ++ _ =
      g.aristasL ++ _
    rw [har]

theorem construirArbol_fold {α : Type} (raiz : String) :
    ∀ (aristas procesadas : List (String × String)) (acc : Grafo α),
      acc.dirigido = true →
      dictKeys acc.nodosD = raiz :: procesadas.map Prod.snd →
      dictKeys acc.nodosD = dictKeys acc.adyacenciaD →
      (∀ ar ∈ acc.aristasL, ar.destino ∈ procesadas.map Prod.snd) →
      (raiz :: (procesadas ++ aristas).map Prod.snd).Nodup →
      (∀ pre u v post, procesadas ++ aristas = pre ++ (u, v) :: post →
        u ∈ raiz :: pre.map Prod.snd) →
      (aristas.foldl (fun a2 pr => a2.add_arista pr.1 pr.2 1) acc).dirigido =
        true ∧
      dictKeys
        (aristas.foldl (fun a2 pr => a2.add_arista pr.1 pr.2 1) acc).nodosD =
        raiz :: (procesadas ++ aristas).map Prod.snd ∧
      ∀ ar ∈ (aristas.foldl (fun a2 pr =>
          a2.add_arista pr.1 pr.2 1) acc).aristasL,
        ar.destino ∈ (procesadas ++ aristas).map Prod.snd := by
  intro aristas
  induction aristas with
  | nil =>
    intro procesadas acc h1 h2 h3 h4 h5 h6
    refine ⟨h1, by simpa using h2, ?_⟩
    intro ar har
    simpa using h4 ar har
  | cons e rest ih =>
    intro procesadas acc h1 h2 h3 h4 h5 h6
    obtain ⟨u, v⟩ := e
    have hu : u ∈ dictKeys acc.nodosD := by
      rw [h2]
      exact h6 procesadas u v rest rfl
    have hcu : dictContains u acc.nodosD = true := (mem_dictKeys u _).1 hu
    have hv : ¬ v ∈ dictKeys acc.nodosD := by
      intro hmem
      rw [h2] at hmem
      rw [List.map_append, List.map_cons] at h5
      rcases List.mem_cons.1 hmem with h7 | h7
      · rw [List.nodup_cons] at h5
        exact h5.1 (List.mem_append_right _ (h7 ▸ List.mem_cons_self v _))
      · rw [List.nodup_cons, List.nodup_append] at h5
        exact h5.2.2.2 h7 (List.mem_cons_self v _)
    have hcv : dictContains v acc.nodosD = false := by
      cases h7 : dictContains v acc.nodosD
      · rfl
      · exact absurd ((mem_dictKeys v _).2 h7) hv
    obtain ⟨hd2, hk2, hs2, ha2⟩ :=
      add_arista_dirigido_nuevo acc u v 1 h1 h3 hcu hcv
    have hfold := ih (procesadas ++ [(u, v)]) (acc.add_arista u v 1) hd2
      (by rw [hk2, h2]; simp)
      hs2
      (by
        intro ar har
        rw [ha2] at har
        rcases List.mem_append.1 har with h7 | h7
        · have h8 := h4 ar h7
          simp only [List.map_append]
          exact List.mem_append_left _ h8
        · simp only [List.mem_singleton] at h7
          rw [h7]
          simp)
      (by
        rw [List.append_assoc]
        simpa using h5)
      (by
        intro pre u2 v2 post heq
        rw [List.append_assoc] at heq
        exact h6 pre u2 v2 post (by simpa using heq))
    simp only [List.foldl_cons]
    refine ⟨hfold.1, ?_, ?_⟩
    · rw [hfold.2.1]
      simp
    · intro ar har
      have h7 := hfold.2.2 ar har
      simp only [List.map_append] at h7 ⊢
      simpa using h7

theorem construirArbol_spec {α : Type} (raiz : String)
    (aristas : List (String × String))
    (hnodup : (raiz :: aristas.map Prod.snd).Nodup)
    (hpre : ∀ pre u v post, aristas = pre ++ (u, v) :: post →
      u ∈ raiz :: pre.map Prod.snd) :
    (Grafo.construirArbol raiz aristas : Grafo α).dirigido = true ∧
    dictKeys (Grafo.construirArbol raiz aristas : Grafo α).nodosD =
      raiz :: aristas.map Prod.snd ∧
    ∀ ar ∈ (Grafo.construirArbol raiz aristas : Grafo α).aristasL,
      ar.destino ≠ raiz := by
  have hbase1 : (((Grafo.nuevo true : Grafo α).add_nodo raiz none).1).dirigido =
      true := by
    rw [add_nodo_dirigido]
    rfl
  have hbase2 : dictKeys
      (((Grafo.nuevo true : Grafo α).add_nodo raiz none).1).nodosD =
      raiz :: ([] : List (String × String)).map Prod.snd := by
    rw [add_nodo_claves_fresco _ raiz none (by rfl)]
    rfl
  have hbase3 : dictKeys
      (((Grafo.nuevo true : Grafo α).add_nodo raiz none).1).nodosD =
      dictKeys (((Grafo.nuevo true : Grafo α).add_nodo raiz none).1).adyacenciaD :=
    add_nodo_sync _ raiz none rfl
  have hbase4 : ∀ ar ∈ (((Grafo.nuevo true : Grafo α).add_nodo raiz
      none).1).aristasL, ar.destino ∈ ([] : List (String × String)).map
      Prod.snd := by
    rw [add_nodo_aristas]
    intro ar har
    cases har
  have h := construirArbol_fold raiz aristas [] _ hbase1 hbase2 hbase3 hbase4
    (by simpa using hnodup) (by simpa using hpre)
  refine ⟨h.1, by simpa using h.2.1, ?_⟩
  intro ar har he
  have h2 := h.2.2 ar har
  rw [List.nodup_cons] at hnodup
  rw [he] at h2
  exact hnodup.1 (by simpa using h2)

/-- Claim C8: for a known start, both traversals succeed and hand back a
tree that is a freshly constructed `Grafo` (built by `construirArbol` from
scratch, so by construction it shares no state with the input graph, which
the pure embedding leaves untouched): the tree is always directed, its
node keys are exactly the visit order — whose first element is the start,
the root — and no tree edge points back into the root. -/
theorem c8_arbol_fresco {α : Type} (g : Grafo α) (inicio : String)
    (goal : Option String) (h : dictContains inicio g.nodosD = true) :
    (∃ r : BfsRes α, Grafo.bfs g inicio goal = Except.ok r ∧
      r.tree = Grafo.construirArbol inicio (bfsSalidaDe g inicio).arist ∧
      r.tree.dirigido = true ∧
      dictKeys r.tree.nodosD = r.order ∧
      r.order.head? = some inicio ∧
      ∀ ar ∈ r.tree.aristasL, ar.destino ≠ inicio) ∧
    (∃ r2 : DfsRes α, Grafo.dfs g inicio goal = Except.ok r2 ∧
      r2.tree = Grafo.construirArbol inicio (g.dfsNucleo inicio).arist ∧
      r2.tree.dirigido = true ∧
      dictKeys r2.tree.nodosD = r2.order ∧
      r2.order.head? = some inicio ∧
      ∀ ar ∈ r2.tree.aristasL, ar.destino ≠ inicio) := by
  constructor
  · have hinv := bfsInv_final g inicio
    have hip := bfsInv_invPadres hinv
    obtain ⟨ruta, hruta⟩ : ∃ ruta, ((match goal with
        | none => Except.ok none
        | some go => Grafo.reconstruir (bfsSalidaDe g inicio).padres inicio go) :
        Except PyErr (Option (List String))) = Except.ok ruta := by
      cases goal with
      | none => exact ⟨none, rfl⟩
      | some go => exact reconstruir_invPadres_ok hip go
    have horden : (bfsSalidaDe g inicio).orden =
        dictKeys (bfsSalidaDe g inicio).dist := by
      simpa using hinv.ordenCola
    have hnodup : (inicio :: (bfsSalidaDe g inicio).arist.map Prod.snd).Nodup := by
      rw [hinv.arbolSnd]
      exact hinv.nodup
    have hspec : (Grafo.construirArbol inicio (bfsSalidaDe g inicio).arist :
        Grafo α).dirigido = true ∧
        dictKeys (Grafo.construirArbol inicio (bfsSalidaDe g inicio).arist :
          Grafo α).nodosD =
          inicio :: (bfsSalidaDe g inicio).arist.map Prod.snd ∧
        ∀ ar ∈ (Grafo.construirArbol inicio (bfsSalidaDe g inicio).arist :
          Grafo α).aristasL, ar.destino ≠ inicio :=
      construirArbol_spec inicio _ hnodup hinv.arbolPre
    refine ⟨_, bfs_eq_ok g inicio goal h ruta hruta, rfl, hspec.1, ?_, ?_,
      hspec.2.2⟩
    · show dictKeys (Grafo.construirArbol inicio (bfsSalidaDe g inicio).arist :
        Grafo α).nodosD = (bfsSalidaDe g inicio).orden
      rw [hspec.2.1, hinv.arbolSnd, horden]
    · show ((bfsSalidaDe g inicio).orden).head? = some inicio
      rw [horden, ← hinv.arbolSnd]
      rfl
  · have hinv := dfsInv_final g inicio
    obtain ⟨r2, hr2, hpar, hord, htree⟩ := dfs_ok_existe g inicio goal h
    have hnodup : (inicio :: (g.dfsNucleo inicio).arist.map Prod.snd).Nodup := by
      rw [hinv.arbolSnd]
      exact hinv.nodup
    have hspec : (Grafo.construirArbol inicio (g.dfsNucleo inicio).arist :
        Grafo α).dirigido = true ∧
        dictKeys (Grafo.construirArbol inicio (g.dfsNucleo inicio).arist :
          Grafo α).nodosD =
          inicio :: (g.dfsNucleo inicio).arist.map Prod.snd ∧
        ∀ ar ∈ (Grafo.construirArbol inicio (g.dfsNucleo inicio).arist :
          Grafo α).aristasL, ar.destino ≠ inicio :=
      construirArbol_spec inicio _ hnodup hinv.arbolPre
    refine ⟨r2, hr2, htree, ?_, ?_, ?_, ?_⟩
    · rw [htree]
      exact hspec.1
    · rw [htree, hord, hspec.2.1, hinv.arbolSnd, hinv.ordenEq]
    · rw [hord, hinv.ordenEq, ← hinv.arbolSnd]
      rfl
    · rw [htree]
      exact hspec.2.2

/-! ## Concrete instances for the claim theorems -/

def opsEj : List (String × String × Rat) := [("a", "b", 1), ("b", "c", 1)]

def gEj : Grafo Unit := aplicarAristas opsEj (Grafo.nuevo false)

def padresEj : Dict (Option String) := [("a", none), ("b", some "a")]

def rangoEj : Dict Nat := [("a", 0), ("b", 1)]

theorem buenosPadresEj : BuenosPadres padresEj := by
  refine ⟨rangoEj, rfl, ?_⟩
  intro k p h
  simp only [padresEj, dictLookup] at h
  by_cases h1 : "a" = k
  · rw [if_pos h1] at h
    cases h
  · rw [if_neg h1] at h
    by_cases h2 : "b" = k
    · rw [if_pos h2] at h
      have hp : p = "a" := by
        injection h with h3
        injection h3 with h4
        exact h4.symm
      subst hp
      subst h2
      exact ⟨1, 0, rfl, rfl, by decide⟩
    · rw [if_neg h2] at h
      cases h

theorem c1_witness :
    dictContains "a" gEj.nodosD = true ∧
    ∃ r : BfsRes Unit, Grafo.bfs gEj "a" none = Except.ok r ∧
      dictLookup "a" r.distances = some 0 ∧
      (∀ v, dictContains v r.distances = true ↔ ∃ n, Camino gEj "a" v n) ∧
      (∀ v d, dictLookup v r.distances = some d →
        Camino gEj "a" v d ∧ ∀ n, Camino gEj "a" v n → d ≤ n) ∧
      r.order.Nodup :=
  ⟨rfl, c1_bfs_distancias_minimas gEj "a" none rfl⟩

theorem c3_witness :
    dictContains "z" gEj.nodosD = false ∧
    (Grafo.bfs gEj "z" none =
      Except.error (PyErr.valueError "start no existe en el grafo.") ∧
    Grafo.dfs gEj "z" none =
      Except.error (PyErr.valueError "start no existe en el grafo.")) :=
  ⟨rfl, c3_inicio_desconocido gEj "z" none rfl⟩

theorem c4_total_witness :
    BuenosPadres padresEj ∧
    ∃ res, Grafo.reconstruir padresEj "a" "b" = Except.ok res ∧
      (dictContains "b" padresEj = false → res = none) ∧
      (∀ camino, caminaAtras padresEj (dictLen padresEj + 1) "b" =
          Except.ok camino →
        (¬ camino.getLast? = some "a" → res = none) ∧
        (camino.getLast? = some "a" → res = some camino.reverse)) :=
  ⟨buenosPadresEj, c4_reconstruir_total "a" "b" buenosPadresEj⟩

theorem c5_witness :
    dictContains "a" gEj.nodosD = true ∧
    ∃ (r : DfsRes Unit) (m : String) (dm : Nat) (p : List String),
      Grafo.dfs gEj "a" none = Except.ok r ∧
      primerMax (gEj.dfsNucleo "a").prof = some m ∧
      dictLookup m (gEj.dfsNucleo "a").prof = some dm ∧
      (∀ k v, dictLookup k (gEj.dfsNucleo "a").prof = some v → v ≤ dm) ∧
      (∃ pre post, dictKeys (gEj.dfsNucleo "a").prof = pre ++ m :: post ∧
        ∀ k ∈ pre, ∀ v, dictLookup k (gEj.dfsNucleo "a").prof = some v →
          v < dm) ∧
      r.deepest_path = some p ∧ p.length = dm + 1 ∧
      p.head? = some "a" ∧ p.getLast? = some m ∧
      (∀ k q, dictLookup k (gEj.dfsNucleo "a").padres = some (some q) →
        ∃ dk dq, dictLookup k (gEj.dfsNucleo "a").prof = some dk ∧
          dictLookup q (gEj.dfsNucleo "a").prof = some dq ∧ dk = dq + 1) :=
  ⟨rfl, c5_dfs_camino_profundo gEj "a" none rfl⟩

theorem c6_witness :
    gEj = aplicarAristas opsEj (Grafo.nuevo false) ∧
    ((∀ u v, (∃ w, (v, w) ∈ gEj.vecinos u) ↔
        (∃ w2, (u, w2) ∈ gEj.vecinos v)) ∧
      gEj.aristasL.length = 2 * opsEj.length ∧
      sumaAdy gEj = 2 * opsEj.length) :=
  ⟨rfl, c6_simetria_no_dirigida opsEj gEj rfl⟩

theorem c7_witness :
    (dictKeys gEj.nodosD).Nodup ∧
    ((gEj.add_nodo "a" (some ())).1.add_nodo "a" none =
      gEj.add_nodo "a" (some ()) ∧
    (dictKeys (gEj.add_nodo "a" (some ())).1.nodosD).count "a" = 1 ∧
    (dictContains "a" gEj.nodosD = false →
      dictLookup "a" (gEj.add_nodo "a" (some ())).1.nodosD =
        some { id := "a", data := some () }) ∧
    (dictContains "a" gEj.nodosD = true →
      (gEj.add_nodo "a" (some ())).1 = gEj)) :=
  ⟨by decide, c7_add_nodo_idempotente gEj "a" (some ()) none (by decide)⟩

theorem c8_witness :
    dictContains "a" gEj.nodosD = true ∧
    ((∃ r : BfsRes Unit, Grafo.bfs gEj "a" none = Except.ok r ∧
      r.tree = Grafo.construirArbol "a" (bfsSalidaDe gEj "a").arist ∧
      r.tree.dirigido = true ∧
      dictKeys r.tree.nodosD = r.order ∧
      r.order.head? = some "a" ∧
      ∀ ar ∈ r.tree.aristasL, ar.destino ≠ "a") ∧
    (∃ r2 : DfsRes Unit, Grafo.dfs gEj "a" none = Except.ok r2 ∧
      r2.tree = Grafo.construirArbol "a" (gEj.dfsNucleo "a").arist ∧
      r2.tree.dirigido = true ∧
      dictKeys r2.tree.nodosD = r2.order ∧
      r2.order.head? = some "a" ∧
      ∀ ar ∈ r2.tree.aristasL, ar.destino ≠ "a")) :=
  ⟨rfl, c8_arbol_fresco gEj "a" none rfl⟩

theorem c10_witness :
    dictContains "a" gEj.nodosD = true ∧
    ((∃ r : BfsRes Unit, Grafo.bfs gEj "a" none = Except.ok r ∧
      dictKeys r.distances = dictKeys r.parents ∧
      r.order = dictKeys r.distances ∧ r.order.Nodup ∧
      ∀ k p, dictLookup k r.parents = some (some p) →
        ∃ pre post, r.order = pre ++ k :: post ∧ p ∈ pre) ∧
    (∃ r2 : DfsRes Unit, Grafo.dfs gEj "a" none = Except.ok r2 ∧
      r2.parents = (gEj.dfsNucleo "a").padres ∧
      r2.order = (gEj.dfsNucleo "a").orden ∧
      dictKeys (gEj.dfsNucleo "a").padres =
        dictKeys (gEj.dfsNucleo "a").prof ∧
      (gEj.dfsNucleo "a").orden = dictKeys (gEj.dfsNucleo "a").padres ∧
      (gEj.dfsNucleo "a").orden.Nodup)) :=
  ⟨rfl, c10_consistencia_resultados gEj "a" none rfl⟩
